import Mathlib

/-!
Verification of the Fundless savings-plan bot core (trading.py, analytics.py,
messages.py) against its natural-language specification.

The Python source is shallowly embedded: numpy float arrays become `List ℚ`,
pandas tables become lists of records, exchange / market-data providers become
explicit environment records of functions, and fallible operations return
`Option`.  Numeric code is modelled over exact rationals, so the spec's
floating-point tolerances (±1e-6, ±1e-9) become exact equalities.
-/

/-- Exchange-side data for one ticker, as used by `trading.py`:
`fetch_ticker(ticker)['last']` is `price`,
`markets[ticker]['limits']['amount']['min']` is `minAmount`,
`markets[ticker]['limits']['cost']['min']` is `minCost`. -/
structure MarketInfo where
  price : ℚ
  minAmount : ℚ
  minCost : ℚ
deriving Repr, DecidableEq

/-- Outcome of `create_market_buy_order` / `create_limit_buy_order`
(`trading.py`): a ccxt order id, a `ccxt.InvalidOrder`, or another
`ccxt.BaseError`. -/
inductive OrderOutcome where
  | ok (id : ℤ)
  | invalid
  | err
deriving Repr, DecidableEq

/-- `OrderTypeEnum` from `config.py`. -/
inductive OrderTypeEnum where
  | market
  | limit
deriving Repr, DecidableEq

/-- Environment of `TradingBot` (`trading.py`): the static config values and
the exchange/analytics collaborators it calls.  `markets s = none` models a
ticker that is not listed on the exchange (`fetch_ticker` raises `BadSymbol`
and membership tests in `exchange.symbols` fail).  `toBaseSymbol` models
`analytics.base_currency_to_base_symbol`. -/
structure TradingEnv where
  baseSymbol : String
  markets : String → Option MarketInfo
  toBaseSymbol : ℚ → ℚ
  freeBalance : Option ℚ
  totalBalance : ℚ
  indexAmountOfBase : ℚ
  createMarketOrder : String → ℚ → OrderOutcome
  createLimitOrder : String → ℚ → ℚ → OrderOutcome

/-- Python `str.upper()`, written so that it reduces in the kernel (it agrees
with `String.toUpper`). -/
def str_upper (s : String) : String :=
  String.mk (s.data.map Char.toUpper)

/-- Python `str.lower()`, written so that it reduces in the kernel (it agrees
with `String.toLower`). -/
def str_lower (s : String) : String :=
  String.mk (s.data.map Char.toLower)

/-- The pair string `f'{symbol.upper()}/{base_symbol.upper()}'`. -/
def ticker_of (base s : String) : String :=
  str_upper s ++ "/" ++ str_upper base

/-- `np.ndarray / ndarray.sum()`: divide every entry by the list's sum
(in ℚ, division by a zero sum yields zeros, matching `x / 0 = 0`). -/
def normalize_weights (ws : List ℚ) : List ℚ :=
  ws.map (· / ws.sum)

/-- `np.argsort` (ascending), modelled with a stable merge sort of the index
list; numpy's default quicksort agrees with it whenever the keys are
distinct. -/
def argsort (ws : List ℚ) : List ℕ :=
  (List.range ws.length).mergeSort (fun i j => decide (ws.getD i 0 ≤ ws.getD j 0))

/-- numpy fancy indexing `xs[idx]`. -/
def gather (xs : List α) (idx : List ℕ) (d : α) : List α :=
  idx.map (fun i => xs.getD i d)

/-- `TradingBot.check_order_limits` (trading.py:237-270): walk the
(symbol, weight) pairs, skip the base symbol, and collect every symbol whose
ticker is unavailable, whose implied amount `weight*volume/price` is at or
below the exchange minimum amount, or whose implied cost `weight*volume` is
at or below the exchange minimum cost, together with the reason; with
`failFast` the first failure is returned immediately. -/
def check_order_limits (env : TradingEnv) (pairs : List (String × ℚ))
    (volume : ℚ) (failFast : Bool) : List String × List String :=
  match pairs with
  | [] => ([], [])
  | (s, w) :: rest =>
    if str_lower s = str_lower env.baseSymbol then
      check_order_limits env rest volume failFast
    else
      match env.markets (ticker_of env.baseSymbol s) with
      | none =>
        if failFast then ([s], ["Ticker not available"])
        else
          let r := check_order_limits env rest volume failFast
          (s :: r.1, "Ticker not available" :: r.2)
      | some m =>
        if w * volume / m.price ≤ m.minAmount then
          if failFast then ([s], ["Order amount too low"])
          else
            let r := check_order_limits env rest volume failFast
            (s :: r.1, "Order amount too low" :: r.2)
        else if w * volume ≤ m.minCost then
          if failFast then ([s], ["Order cost too low"])
          else
            let r := check_order_limits env rest volume failFast
            (s :: r.1, "Order cost too low" :: r.2)
        else
          check_order_limits env rest volume failFast

/-- The `for i, _ in enumerate(sorted_symbols)` loop of
`TradingBot.volume_corrected_weights` (trading.py:137-146): try the suffix
starting at each index in turn (each step discards the lowest-weight
remaining symbol), renormalize it, and re-run the fail-fast limit check;
on success return the suffix sorted by descending weight (third component
`none` models Python's `None`), otherwise keep the last failure reason and
continue; an exhausted list reports the batch infeasible. -/
def vcw_loop (env : TradingEnv) (volume : ℚ) :
    List (String × ℚ) → List String → List String × List ℚ × Option (List String)
  | [], reason0 => ([], [], some reason0)
  | p :: rest, _ =>
    let check_symbols := (p :: rest).map Prod.fst
    let check_weights := normalize_weights ((p :: rest).map Prod.snd)
    let cr := check_order_limits env (check_symbols.zip check_weights) volume true
    if cr.1.isEmpty then
      let sorter := argsort check_weights
      (gather check_symbols sorter.reverse "", check_weights.reverse, none)
    else
      vcw_loop env volume rest cr.2

/-- `TradingBot.volume_corrected_weights` (trading.py:125-147): convert the
order volume to the base symbol, normalize the weights, and run the
fail-fast limit check; on failure sort the pairs by ascending weight, drop
the lowest one, and enter the retry loop.  The third component models the
Python return values `[]` (initial pass), `None` (loop pass) and `reason`
(infeasible). -/
def volume_corrected_weights (env : TradingEnv) (symbols : List String)
    (weights0 : List ℚ) (base_currency_volume : ℚ) :
    List String × List ℚ × Option (List String) :=
  let volume := env.toBaseSymbol base_currency_volume
  let weights := normalize_weights weights0
  let cr := check_order_limits env (symbols.zip weights) volume true
  if cr.1.isEmpty then
    (symbols, weights, some [])
  else
    let sorter := argsort weights
    let sorted_weights := gather weights (sorter.drop 1) 0
    let sorted_symbols := gather symbols (sorter.drop 1) ""
    vcw_loop env volume (sorted_symbols.zip sorted_weights) cr.2

/-- The `problems` dict assembled by `TradingBot.check_order_executable`
(trading.py:153): per-symbol issues, the hard-fail and occurred flags, the
last description (numeric formatting elided), the skippable coins, and the
optional `adjusted_volume` entry. -/
structure Problems where
  symbol_issues : List (String × String)
  fail : Bool
  occurred : Bool
  description : String
  skip_coins : List String
  adjusted_volume : Option ℚ
deriving Repr, DecidableEq

/-- Initial `problems` dict of `check_order_executable`. -/
def empty_problems : Problems :=
  { symbol_issues := [], fail := false, occurred := false, description := ""
    skip_coins := [], adjusted_volume := none }

/-- First loop of `check_order_executable` (trading.py:154-163): every
non-base symbol whose pair is not listed on the exchange marks the batch as
occurred and hard-failed. -/
def availability_problems (env : TradingEnv) : List (String × ℚ) → Problems → Problems
  | [], p => p
  | (s, _) :: rest, p =>
    if str_lower s = str_lower env.baseSymbol then availability_problems env rest p
    else if (env.markets (ticker_of env.baseSymbol s)).isSome then
      availability_problems env rest p
    else
      availability_problems env rest
        { p with
          occurred := true
          fail := true
          description := "Symbol " ++ ticker_of env.baseSymbol s ++ " not available"
          symbol_issues := p.symbol_issues ++ [(s, "not available")] }

/-- Second loop of `check_order_executable` (trading.py:168-174): record every
below-limit symbol as a skippable problem (the fail flag is NOT set here). -/
def limit_problems : List (String × String) → Problems → Problems
  | [], p => p
  | (s, r) :: rest, p =>
    limit_problems rest
      { p with
        occurred := true
        description := str_upper s ++ ": " ++ r
        symbol_issues := p.symbol_issues ++ [(s, r)]
        skip_coins := p.skip_coins ++ [s] }

/-- trading.py:175-179: use the free base-symbol balance when present,
otherwise the total balance. -/
def balance_of (env : TradingEnv) : ℚ :=
  match env.freeBalance with
  | some b => b
  | none => env.totalBalance

/-- `TradingBot.check_order_executable` (trading.py:149-222): the pre-flight
check.  Unavailable pairs hard-fail the batch; below-limit symbols are
recorded as skippable; then the balance check runs: a balance below the
volume sets `insufficient`, and only when the upper-cased base symbol is
literally an element of `symbols` is the index-holdings comparison made,
where a shortfall of strictly less than 2% of the volume is converted into
an `adjusted_volume` entry instead of a hard failure.  `insufficient` makes
the batch fail unless `adjusted_volume` is present and truthy (non-zero). -/
def check_order_executable (env : TradingEnv) (symbols : List String)
    (weights : List ℚ) (base_symbol_volume : ℚ) : Problems :=
  let pairs := symbols.zip weights
  let problems := availability_problems env pairs empty_problems
  if problems.occurred then problems
  else
    let vf := check_order_limits env pairs base_symbol_volume false
    let problems := limit_problems (vf.1.zip vf.2) problems
    let balance := balance_of env
    let step1 :=
      if balance < base_symbol_volume then
        (true, { problems with
          description := "Insufficient funds to execute savings plan" })
      else (false, problems)
    let step2 :=
      if str_upper env.baseSymbol ∈ symbols then
        if balance < base_symbol_volume + env.indexAmountOfBase then
          if balance - env.indexAmountOfBase > (98 / 100) * base_symbol_volume then
            (true, { step1.2 with
              description := "Available base symbol is slightly lower than your order volume, lowering the volume by that amount"
              adjusted_volume := some (balance - env.indexAmountOfBase) })
          else
            (true, { step1.2 with
              description := "Insufficient funds to execute savings plan over portfolio holdings" })
        else step1
      else step1
    if step2.1 then
      { step2.2 with
        occurred := true
        fail := decide (step2.2.adjusted_volume.getD 0 = 0) }
    else step2.2

/-- The per-symbol order placement loop of `TradingBot.weighted_buy_order`
(trading.py:292-321): the base symbol itself gets a synthetic entry with its
notional stored as a negative pseudo-id; other symbols submit a market (or
limit, at 0.2% below last price) buy; `InvalidOrder` records the symbol as
invalid, other exchange errors are skipped.  Returns
(order ids, placed symbols, invalid symbols). -/
def place_orders (env : TradingEnv) (order_type : OrderTypeEnum) (volume : ℚ) :
    List (String × ℚ) → List ℚ × List String × List String
  | [] => ([], [], [])
  | (s, w) :: rest =>
    let r := place_orders env order_type volume rest
    if str_lower s = str_lower env.baseSymbol then
      (-(w * volume) :: r.1, str_upper s :: r.2.1, r.2.2)
    else
      match env.markets (ticker_of env.baseSymbol s) with
      | none => r
      | some m =>
        let amount := w * volume / m.price
        let outcome :=
          match order_type with
          | .market => env.createMarketOrder (ticker_of env.baseSymbol s) amount
          | .limit =>
            env.createLimitOrder (ticker_of env.baseSymbol s) amount ((998 / 1000) * m.price)
        match outcome with
        | .ok id => ((id : ℚ) :: r.1, ticker_of env.baseSymbol s :: r.2.1, r.2.2)
        | .invalid => (r.1, r.2.1, s :: r.2.2)
        | .err => r

/-- The report returned by `weighted_buy_order`. -/
structure BuyReport where
  problems : Problems
  order_ids : List ℚ
  symbols : List String
  invalid_symbols : List String
deriving Repr, DecidableEq

/-- `TradingBot.weighted_buy_order` (trading.py:273-328): run the pre-flight
check; on a hard failure return immediately, otherwise replace the volume by
`adjusted_volume` when present and place the per-symbol orders. -/
def weighted_buy_order (env : TradingEnv) (symbols : List String)
    (weights : List ℚ) (base_currency_volume : ℚ)
    (order_type : OrderTypeEnum) : BuyReport :=
  let volume := env.toBaseSymbol base_currency_volume
  let problems := check_order_executable env symbols weights volume
  if problems.fail then
    { problems := problems, order_ids := [], symbols := [], invalid_symbols := [] }
  else
    let volume2 := problems.adjusted_volume.getD volume
    let r := place_orders env order_type volume2 (symbols.zip weights)
    { problems := problems, order_ids := r.1, symbols := r.2.1, invalid_symbols := r.2.2 }

/-- Outcome of one `TelegramBot.check_orders` job run (messages.py:451-537)
for an order batch: all orders closed ends the conversation (`settled`); an
exhausted retry budget ends it with a manual-intervention message
(`stalled`); otherwise another check is scheduled via
`job_queue.run_once(when=wait_time, data=(ids, symbols, n_retry+1))` and the
conversation stays in the `CHECKING` state. -/
inductive CheckOutcome where
  | settled
  | stalled
  | rescheduled (delay_seconds : ℕ) (next_retry : ℕ)
deriving Repr, DecidableEq

/-- The scheduling decision of `TelegramBot.check_orders` (messages.py:492,
508, 522-531), as a function of the retry count carried in the job data and
of whether `len(closed_orders) == len(order_ids)`. -/
def check_orders_step (n_retry : ℕ) (all_closed : Bool) : CheckOutcome :=
  if all_closed then .settled
  else if n_retry > 10 then .stalled
  else .rescheduled (60 * n_retry * n_retry) (n_retry + 1)

/-- messages.py:411: the first check is scheduled 10 seconds after order
placement with retry count 1. -/
def initial_check_schedule : ℕ × ℕ := (10, 1)

/-- Number of check runs executed for a batch whose orders never close, when
the scheduler is willing to fire at most `fuel` times, starting from retry
count `n`: each run counts once and only a `rescheduled` outcome leads to a
further run. -/
def run_never_closing : ℕ → ℕ → ℕ
  | 0, _ => 0
  | fuel + 1, n =>
    match check_orders_step n false with
    | .rescheduled _ n2 => 1 + run_never_closing fuel n2
    | _ => 1

/-- One row of `trades.csv` (analytics.py `add_trade`): the trade ledger
record.  Dates are epoch timestamps (the strftime round-trip is elided). -/
structure Trade where
  date : ℤ
  id : String
  buy_symbol : String
  sell_symbol : String
  price : ℚ
  amount : ℚ
  cost : ℚ
  fee : ℚ
  fee_symbol : String
  base_cost : ℚ
  exchange : String
deriving Repr, DecidableEq

/-- One row of `order_ids.csv` (analytics.py `add_order_id`). -/
structure PendingOrder where
  id : String
  symbol : String
  date : ℤ
deriving Repr, DecidableEq

/-- The relevant fields of a ccxt order returned by `fetch_order`. -/
structure FetchedOrder where
  timestamp : ℤ
  symbol_pair : String
  price : ℚ
  amount : ℚ
  cost : ℚ
  fee : Option (ℚ × String)
deriving Repr, DecidableEq

/-- Status of a fetched order: still open, or closed with its fill data. -/
inductive OrderStatus where
  | still_open
  | closed (o : FetchedOrder)
deriving Repr, DecidableEq

/-- Environment of the ledger reconciliation in
`PortfolioAnalytics.update_trades_df` (analytics.py:309-447): the current
time, the (retry-wrapped, deterministic) order fetcher, the base-currency
conversion used by `add_trade`, and the configured exchange name. -/
structure LedgerEnv where
  now : ℤ
  fetch_order : String → String → OrderStatus
  base_symbol_to_base_currency : ℚ → ℚ
  exchange_name : String

/-- `order['symbol'].split('/')`: buy symbol before the slash, sell symbol
after it. -/
def split_pair (pair : String) : String × String :=
  ((pair.splitOn "/").getD 0 "", (pair.splitOn "/").getD 1 "")

/-- `PortfolioAnalytics.add_trade` (analytics.py:531-580) applied to an
explicit `trades_df`: append one row, upper-casing the symbols, defaulting a
missing fee to 0 and a missing fee symbol to the empty string, and computing
the base-currency cost from `cost`. -/
def add_trade (env : LedgerEnv) (trades_df : List Trade) (date : ℤ)
    (id buy_symbol sell_symbol : String) (price amount cost : ℚ)
    (fee : Option ℚ) (fee_symbol : Option String) : List Trade :=
  trades_df ++
    [{ date := date, id := id, buy_symbol := str_upper buy_symbol
       sell_symbol := str_upper sell_symbol, price := price, amount := amount
       cost := cost, fee := fee.getD 0
       fee_symbol := str_upper (fee_symbol.getD "")
       base_cost := env.base_symbol_to_base_currency cost
       exchange := env.exchange_name }]

/-- Body of the missing-order loop in `update_trades_df`
(analytics.py:331-372): orders younger than the 10-minute grace window are
skipped without a fetch; otherwise the order is fetched (its id is recorded
in the second component) and, when closed, appended as a `Trade` with the
buy/sell symbols split from the pair notation. -/
def reconcile_step (env : LedgerEnv) (acc : List Trade × List String)
    (p : PendingOrder) : List Trade × List String :=
  if env.now - p.date < 600 then acc
  else
    match env.fetch_order p.id p.symbol with
    | .still_open => (acc.1, acc.2 ++ [p.id])
    | .closed o =>
      (add_trade env acc.1 o.timestamp p.id (split_pair o.symbol_pair).1
         (split_pair o.symbol_pair).2 o.price o.amount o.cost
         (o.fee.map Prod.fst) (o.fee.map Prod.snd),
       acc.2 ++ [p.id])

/-- The pending-order reconciliation of `PortfolioAnalytics.update_trades_df`
(analytics.py:326-372): the pending orders whose id is not yet a trade id
are computed once against the incoming table, then folded through
`reconcile_step`.  Returns the new trades table and the list of order ids
that were fetched from the exchange. -/
def reconcile_pending (env : LedgerEnv) (order_ids : List PendingOrder)
    (trades_df : List Trade) : List Trade × List String :=
  let missing := order_ids.filter (fun p => !(trades_df.map Trade.id).contains p.id)
  missing.foldl (reconcile_step env) (trades_df, [])

/-- `allocation_error['absolute']` (trading.py:103):
`values - index_weights * values.sum()`. -/
def absolute_error (values index_weights : List ℚ) : List ℚ :=
  List.zipWith (fun v w => v - w * values.sum) values index_weights

/-- trading.py:117-118: `volume * index_weights - absolute_error`, clipped at
a minimum of 0. -/
def clipped_volumes (index_weights values : List ℚ) (volume : ℚ) : List ℚ :=
  (List.zipWith (fun w e => volume * w - e) index_weights
    (absolute_error values index_weights)).map (fun v => max v 0)

/-- The volume computation of `TradingBot.rebalancing_weights`
(trading.py:117-121): the clipped volumes; when their sum falls short of the
volume the shortfall is redistributed proportionally to the index
weights. -/
def rebalancing_volumes (index_weights values : List ℚ) (volume : ℚ) : List ℚ :=
  let clipped := clipped_volumes index_weights values volume
  let rebalancing_volume := clipped.sum
  if rebalancing_volume < volume then
    List.zipWith (fun v w => v + (volume - rebalancing_volume) * w) clipped index_weights
  else clipped

/-- `TradingBot.rebalancing_weights` (trading.py:112-123): the final weights
are the rebalancing volumes normalized by their sum. -/
def rebalancing_weights (index_weights values : List ℚ) (volume : ℚ) : List ℚ :=
  normalize_weights (rebalancing_volumes index_weights values volume)

/-- `WeightingEnum` from `config.py`. -/
inductive WeightingEnum where
  | equal
  | custom
  | market_cap
  | sqrt_market_cap
  | sqrt_sqrt_market_cap
  | cbrt_market_cap
deriving Repr, DecidableEq

/-- Environment of `PortfolioAnalytics.fetch_index_weights`
(analytics.py:956-992): the configured index, custom weight table and
weighting scheme, the market-data table (symbol, market_cap) with symbols
stored lower-cased, and the numpy root transforms.  `np.sqrt` and `np.cbrt`
are irrational on ℚ, so they are carried as environment functions and
constrained in theorems instead of being computed. -/
structure WeightsEnv where
  cherry_pick_symbols : List String
  custom_weights : List (String × ℚ)
  portfolio_weighting : WeightingEnum
  market_rows : List (String × ℚ)
  sqrtFn : ℚ → ℚ
  cbrtFn : ℚ → ℚ

/-- Elementwise evaluation of a fallible function over a list, propagating
the first failure (models a numpy list comprehension whose body may
raise). -/
def map_option {α β : Type} (f : α → Option β) : List α → Option (List β)
  | [] => some []
  | a :: as =>
    match f a, map_option f as with
    | some b, some bs => some (b :: bs)
    | _, _ => none

/-- `self.markets.loc[self.markets.symbol == sym, "market_cap"].item()`:
pandas `.item()` demands exactly one matching row and raises otherwise. -/
def market_cap_item (rows : List (String × ℚ)) (sym : String) : Option ℚ :=
  match rows.filter (fun r => r.1 = sym) with
  | [r] => some r.2
  | _ => none

/-- The pre-normalization weight vector of `fetch_index_weights`
(analytics.py:962-990): equal weighting gives `1/len(cherry_pick)` to index
members and 0 to others; custom weighting looks symbols up in the custom
table with default 0; the market-cap schemes look up each index member's
market cap (raising, i.e. `none`, when no unique row exists), give 0 to
non-members, and apply the configured root transform. -/
def raw_index_weights (env : WeightsEnv) (symbols : List String) : Option (List ℚ) :=
  match env.portfolio_weighting with
  | .equal =>
    some (symbols.map (fun s =>
      if s ∈ env.cherry_pick_symbols then 1 / (env.cherry_pick_symbols.length : ℚ) else 0))
  | .custom =>
    some (symbols.map (fun s => ((env.custom_weights.lookup s).getD 0)))
  | w =>
    (map_option (fun s =>
      if s ∈ env.cherry_pick_symbols then market_cap_item env.market_rows s
      else some 0) symbols).map
      (fun caps =>
        match w with
        | .sqrt_market_cap => caps.map env.sqrtFn
        | .sqrt_sqrt_market_cap => caps.map (fun c => env.sqrtFn (env.sqrtFn c))
        | .cbrt_market_cap => caps.map env.cbrtFn
        | _ => caps)

/-- `PortfolioAnalytics.fetch_index_weights` (analytics.py:956-992): lower-
case the requested symbols (defaulting to the configured index), build the
raw weight vector and normalize it by its sum.  `none` models the ValueError
raised by `.item()` on a missing market-data row. -/
def fetch_index_weights (env : WeightsEnv) (symbols0 : Option (List String)) :
    Option (List String × List ℚ) :=
  let symbols :=
    match symbols0 with
    | some ss => ss.map str_lower
    | none => env.cherry_pick_symbols
  (raw_index_weights env symbols).map (fun ws => (symbols, normalize_weights ws))

/-- One CoinGecko market row kept by `update_markets`. -/
structure MarketRow where
  id : String
  symbol : String
  name : String
  current_price : ℚ
  market_cap : ℚ
deriving Repr, DecidableEq

/-- The market-snapshot part of `PortfolioAnalytics` state:
`markets = none` models the attribute before the first successful load. -/
structure MarketsState where
  markets : Option (List MarketRow)
  last_market_update : ℚ
deriving Repr, DecidableEq

/-- Result of the (retry-wrapped) paginated `get_coins_markets` calls:
both pages, or a `requests.exceptions.HTTPError` after retries are
exhausted. -/
inductive FetchMarketsOutcome where
  | ok (page1 page2 : List MarketRow)
  | httpError
deriving Repr, DecidableEq

/-- `coingecko_symbol_dict = {"miota": "iota"}` (analytics.py:34), applied by
`markets.replace` after lower-casing. -/
def coingecko_symbol_replace (s : String) : String :=
  if s = "miota" then "iota" else s

/-- analytics.py:490-507: concatenate the two fetched pages, lower-case the
symbols and apply the alias table. -/
def process_markets (page1 page2 : List MarketRow) : List MarketRow :=
  (page1 ++ page2).map
    (fun r => { r with symbol := coingecko_symbol_replace (str_lower r.symbol) })

/-- `PortfolioAnalytics.update_markets` (analytics.py:475-510): without
`force`, a refresh within the 2-second throttle window returns the state
unchanged; an HTTP error after retries also leaves the snapshot and its
timestamp unchanged; otherwise the processed pages replace the snapshot and
the timestamp is set to now. -/
def update_markets (force : Bool) (now : ℚ) (fetch : FetchMarketsOutcome)
    (s : MarketsState) : MarketsState :=
  if ¬ force ∧ s.last_market_update ≥ now - 2 then s
  else
    match fetch with
    | .httpError => s
    | .ok page1 page2 =>
      { markets := some (process_markets page1 page2), last_market_update := now }

/-- `FIAT_SYMBOLS` from `constants.py`. -/
def FIAT_SYMBOLS : List String := ["EUR", "USD", "GBP"]

/-- A Python float that may be NaN; ordinary values are exact rationals. -/
inductive FloatVal where
  | nan
  | val (q : ℚ)
deriving Repr, DecidableEq

/-- Collaborators of `PortfolioAnalytics.convert`: the fiat currency
converter and `get_crypto_price` (both only reached in the non-identity,
non-NaN branches). -/
structure ConvertEnv where
  fiatConvert : ℚ → String → String → ℚ
  cryptoPrice : String → String → ℚ

/-- `PortfolioAnalytics.convert` (analytics.py:264-282): upper-case both
symbols; a NaN amount converts to 0; identical symbols return the amount
unchanged; fiat→fiat uses the currency converter; fiat→crypto divides by
the crypto price; anything else multiplies by it. -/
def convert (env : ConvertEnv) (amount : FloatVal)
    (from_symbol to_symbol : String) : FloatVal :=
  match amount with
  | .nan => .val 0
  | .val a =>
    if str_upper from_symbol = str_upper to_symbol then .val a
    else if str_upper from_symbol ∈ FIAT_SYMBOLS ∧ str_upper to_symbol ∈ FIAT_SYMBOLS then
      .val (env.fiatConvert a (str_upper from_symbol) (str_upper to_symbol))
    else if str_upper from_symbol ∈ FIAT_SYMBOLS then
      .val (a / env.cryptoPrice (str_upper to_symbol) (str_upper from_symbol))
    else
      .val (a * env.cryptoPrice (str_upper from_symbol) (str_upper to_symbol))

/-- The spec's removal step for the OrderSizeCorrector (§4.7): drop the
single lowest-weight symbol from the candidate set — here the first pair
carrying the minimum weight. -/
def drop_lowest (pairs : List (String × ℚ)) : List (String × ℚ) :=
  match (pairs.map Prod.snd).min? with
  | none => []
  | some m => pairs.eraseP (fun p => decide (p.2 = m))

/-- Follows the spec's words (§4.7 OrderSizeCorrector): check every symbol of
the candidate set against its constraint (weights renormalized to sum 1);
if any fails, drop the single lowest-weight symbol and re-check the reduced
set, repeating until all remaining symbols pass or the set is empty
(in which case the batch is infeasible, `none`).  `fuel` bounds the
number of rounds; `spec_order_size_correction` supplies `pairs.length`. -/
def spec_correction_rounds (env : TradingEnv) (volume : ℚ) :
    ℕ → List (String × ℚ) → Option (List (String × ℚ))
  | _, [] => none
  | 0, _ :: _ => none
  | fuel + 1, p :: rest =>
    let pairs := p :: rest
    let normed := pairs.map (fun q => (q.1, q.2 / (pairs.map Prod.snd).sum))
    if (check_order_limits env normed volume true).1.isEmpty then some normed
    else spec_correction_rounds env volume fuel (drop_lowest pairs)

/-- The spec's OrderSizeCorrector (§4.7) on a candidate set: at most one
round per candidate symbol is ever needed. -/
def spec_order_size_correction (env : TradingEnv) (volume : ℚ)
    (pairs : List (String × ℚ)) : Option (List (String × ℚ)) :=
  spec_correction_rounds env volume pairs.length pairs

/-- The trade row appended by the reconciliation loop for pending order `p`
fetched as closed order `o` (analytics.py:357-371). -/
def reconciled_trade (env : LedgerEnv) (p : PendingOrder) (o : FetchedOrder) : Trade :=
  { date := o.timestamp, id := p.id,
    buy_symbol := str_upper (split_pair o.symbol_pair).1
    sell_symbol := str_upper (split_pair o.symbol_pair).2
    price := o.price, amount := o.amount, cost := o.cost
    fee := (o.fee.map Prod.fst).getD 0
    fee_symbol := str_upper ((o.fee.map Prod.snd).getD "")
    base_cost := env.base_symbol_to_base_currency o.cost
    exchange := env.exchange_name }

/-- Trades contributed by a single pending order in the reconciliation loop:
none when it is inside the grace window or still open, the synthesized trade
when it is closed. -/
def step_trades (env : LedgerEnv) (p : PendingOrder) : List Trade :=
  if env.now - p.date < 600 then []
  else
    match env.fetch_order p.id p.symbol with
    | .still_open => []
    | .closed o => [reconciled_trade env p o]

/-- Order ids fetched from the exchange for a single pending order in the
reconciliation loop: none inside the grace window, the order's id
otherwise. -/
def step_fetched (env : LedgerEnv) (p : PendingOrder) : List String :=
  if env.now - p.date < 600 then [] else [p.id]

/-- Concrete exchange environment for the §8 order-size scenario: A and B
trade against EUR at price 1 with minimum notionals 10 and 50, zero minimum
amounts, and ample balance. -/
def env_scenario : TradingEnv :=
  { baseSymbol := "eur"
    markets := fun t =>
      if t = "A/EUR" then some { price := 1, minAmount := 0, minCost := 10 }
      else if t = "B/EUR" then some { price := 1, minAmount := 0, minCost := 50 }
      else none
    toBaseSymbol := id
    freeBalance := some 1000
    totalBalance := 1000
    indexAmountOfBase := 0
    createMarketOrder := fun _ _ => .ok 1
    createLimitOrder := fun _ _ _ => .ok 1 }

/-- Concrete exchange environment for the balance pre-flight check: ETH
trades against EUR with negligible limits, and the account holds 99 EUR. -/
def env_balance : TradingEnv :=
  { baseSymbol := "eur"
    markets := fun t =>
      if t = "ETH/EUR" then some { price := 1, minAmount := -1, minCost := -1 }
      else none
    toBaseSymbol := id
    freeBalance := some 99
    totalBalance := 99
    indexAmountOfBase := 0
    createMarketOrder := fun _ _ => .ok 7
    createLimitOrder := fun _ _ _ => .ok 7 }

/-- Concrete weighting environment: a two-coin index under raw market-cap
weighting where only btc has a market-data row. -/
def env_mcap : WeightsEnv :=
  { cherry_pick_symbols := ["btc", "foo"]
    custom_weights := []
    portfolio_weighting := .market_cap
    market_rows := [("btc", 1000)]
    sqrtFn := id
    cbrtFn := id }

/-- Concrete weighting environment for the custom scheme: only btc appears in
the custom weight table. -/
def env_custom : WeightsEnv :=
  { env_mcap with
    portfolio_weighting := .custom
    custom_weights := [("btc", 3)] }

/-- Concrete ledger environment: order "1" settled as a BTC/EUR fill, order
"2" still open, at time 10000. -/
def env_ledger : LedgerEnv :=
  { now := 10000
    fetch_order := fun id _ =>
      if id = "1" then
        .closed { timestamp := 500, symbol_pair := "BTC/EUR", price := 100
                  amount := 2, cost := 200, fee := none }
      else .still_open
    base_symbol_to_base_currency := id
    exchange_name := "binance" }

/-- A pending order settled long ago. -/
def pending_one : PendingOrder := { id := "1", symbol := "BTC/EUR", date := 100 }

/-- A pending order that is still open on the exchange. -/
def pending_two : PendingOrder := { id := "2", symbol := "ETH/EUR", date := 100 }

/-- A ledger row whose id coincides with `pending_one`. -/
def trade_one : Trade :=
  { date := 400, id := "1", buy_symbol := "BTC", sell_symbol := "EUR"
    price := 100, amount := 2, cost := 200, fee := 0, fee_symbol := ""
    base_cost := 200, exchange := "binance" }

/-- A concrete market snapshot row. -/
def row_btc : MarketRow :=
  { id := "bitcoin", symbol := "btc", name := "Bitcoin"
    current_price := 100, market_cap := 1000 }

/-- A market-cache state that has loaded one row at time 50. -/
def state_loaded : MarketsState :=
  { markets := some [row_btc], last_market_update := 50 }

/-- A concrete conversion environment: fiat conversion doubles, every crypto
price is 5. -/
def env_convert : ConvertEnv :=
  { fiatConvert := fun a _ _ => a * 2
    cryptoPrice := fun _ _ => 5 }

/-- One (symbol, weight) pair passes `check_order_limits`: either it is the
base symbol (skipped by the check) or its ticker is listed and both the
implied amount `weight*volume/price` and the implied cost `weight*volume`
are strictly above the exchange minimums. -/
def passes_limits (env : TradingEnv) (volume : ℚ) (s : String) (w : ℚ) : Prop :=
  str_lower s = str_lower env.baseSymbol ∨
    ∃ m, env.markets (ticker_of env.baseSymbol s) = some m ∧
      m.minAmount < w * volume / m.price ∧ m.minCost < w * volume

/-- Claim C10: for every pair of symbols S and T and every amount, `convert`
returns the amount unchanged when the symbols agree case-insensitively
(identity for every environment, hence without any price lookup), and
returns 0 for a NaN amount regardless of the symbols. -/
theorem convert_identity_and_nan (env : ConvertEnv) (a : ℚ) (S T : String) :
    (str_upper S = str_upper T → convert env (.val a) S T = .val a) ∧
    convert env .nan S T = .val 0 := by
  refine ⟨fun h => ?_, rfl⟩
  simp [convert, h]

/-- Witness for C10 at concrete inputs. -/
theorem convert_identity_and_nan_witness :
    convert env_convert (.val 7) "btc" "BTC" = .val 7 ∧
    convert env_convert .nan "btc" "eth" = .val 0 :=
  ⟨(convert_identity_and_nan env_convert 7 "btc" "BTC").1 (by decide),
   (convert_identity_and_nan env_convert 7 "btc" "eth").2⟩

/-- Claim C9: `update_markets` leaves the snapshot and its timestamp
unchanged both when called without force inside the 2-second throttle
window and when the provider fetch fails with an HTTP error after retries;
consequently a state whose snapshot has loaded never degrades to a missing
snapshot. -/
theorem update_markets_frame (force : Bool) (now : ℚ)
    (fetch : FetchMarketsOutcome) (s : MarketsState) :
    (force = false → now - 2 ≤ s.last_market_update →
      update_markets force now fetch s = s) ∧
    (fetch = .httpError → update_markets force now fetch s = s) ∧
    (s.markets.isSome → (update_markets force now fetch s).markets.isSome) := by
  refine ⟨fun hf ht => ?_, fun hf => ?_, fun hm => ?_⟩
  · simp [update_markets, hf, ht]
  · subst hf
    unfold update_markets
    split
    · rfl
    · rfl
  · unfold update_markets
    split
    · exact hm
    · cases fetch
      · simp
      · exact hm

/-- Witness for C9: a throttled call and an exhausted-retries call leave the
loaded state intact. -/
theorem update_markets_frame_witness :
    update_markets false 51 (.ok [] []) state_loaded = state_loaded ∧
    update_markets true 51 .httpError state_loaded = state_loaded ∧
    (update_markets true 51 (.ok [] []) state_loaded).markets.isSome :=
  ⟨(update_markets_frame false 51 (.ok [] []) state_loaded).1 rfl (by norm_num [state_loaded]),
   (update_markets_frame true 51 .httpError state_loaded).2.1 rfl,
   (update_markets_frame true 51 (.ok [] []) state_loaded).2.2 (by decide)⟩

/-- Helper for C4: a check chain that starts at retry count `n` (between 1
and 11) and never sees its orders close runs exactly `12 - n` times, no
matter how many scheduler slots are available. -/
theorem run_never_closing_eq (fuel : ℕ) :
    ∀ n : ℕ, 1 ≤ n → n ≤ 11 → 12 - n ≤ fuel → run_never_closing fuel n = 12 - n := by
  induction fuel with
  | zero => intro n h1 h2 h3; omega
  | succ fuel ih =>
    intro n h1 h2 h3
    by_cases h : 10 < n
    · have hn : n = 11 := by omega
      subst hn
      simp [run_never_closing, check_orders_step]
    · have hstep : check_orders_step n false =
          .rescheduled (60 * n * n) (n + 1) := by
        simp [check_orders_step, h]
      rw [show run_never_closing (fuel + 1) n =
        1 + run_never_closing fuel (n + 1) by rw [run_never_closing, hstep]]
      rw [ih (n + 1) (by omega) (by omega) (by omega)]
      omega

/-- Claim C4: while the retry count is at most 10, a check that leaves orders
open schedules the next check after exactly `60·n²` seconds with retry
count `n+1` and stays in the checking state; a retry count above 10
transitions to the stalled terminal outcome with nothing scheduled; hence a
batch whose orders never close is polled exactly 11 times (starting from the
initial schedule at retry count 1) however many scheduler slots remain. -/
theorem check_orders_retry_policy :
    (∀ n : ℕ, n ≤ 10 → check_orders_step n false =
      .rescheduled (60 * n ^ 2) (n + 1)) ∧
    (∀ n : ℕ, 10 < n → check_orders_step n false = .stalled) ∧
    initial_check_schedule.2 = 1 ∧
    (∀ fuel : ℕ, 11 ≤ fuel → run_never_closing fuel 1 = 11) := by
  refine ⟨fun n hn => ?_, fun n hn => ?_, rfl, fun fuel hf => ?_⟩
  · have : ¬ 10 < n := by omega
    simp [check_orders_step, this, pow_two, Nat.mul_assoc]
  · simp [check_orders_step, hn]
  · have := run_never_closing_eq fuel 1 (by omega) (by omega) (by omega)
    simpa using this

/-- Witness for C4: at retry count 3 the next check comes after 540 seconds;
retry count 11 stalls; 12 scheduler slots still yield exactly 11 polls. -/
theorem check_orders_retry_policy_witness :
    check_orders_step 3 false = .rescheduled (60 * 3 ^ 2) (3 + 1) ∧
    check_orders_step 11 false = .stalled ∧
    run_never_closing 12 1 = 11 :=
  ⟨check_orders_retry_policy.1 3 (by decide),
   check_orders_retry_policy.2.1 11 (by decide),
   check_orders_retry_policy.2.2.2 12 (by decide)⟩

/-- Summing a list divided elementwise by a constant divides the sum. -/
theorem sum_map_div (l : List ℚ) (c : ℚ) : (l.map (· / c)).sum = l.sum / c := by
  induction l with
  | nil => simp
  | cons x xs ih => simp [ih, add_div]

/-- Members of a `zipWith` come from members of the two lists. -/
theorem mem_zipWith {α β γ : Type} {f : α → β → γ} :
    ∀ {l1 : List α} {l2 : List β} {x : γ}, x ∈ List.zipWith f l1 l2 →
      ∃ a ∈ l1, ∃ b ∈ l2, x = f a b := by
  intro l1
  induction l1 with
  | nil => intro l2 x h; simp at h
  | cons a as ih =>
    intro l2 x h
    cases l2 with
    | nil => simp at h
    | cons b bs =>
      simp only [List.zipWith_cons_cons, List.mem_cons] at h
      rcases h with h | h
      · exact ⟨a, by simp, b, by simp, h⟩
      · obtain ⟨a2, ha, b2, hb, hx⟩ := ih h
        exact ⟨a2, by simp [ha], b2, by simp [hb], hx⟩

/-- Sum of `zipWith (fun v w => v + c*w)` over equally long lists. -/
theorem sum_zipWith_add_mul (c : ℚ) :
    ∀ (l1 l2 : List ℚ), l1.length = l2.length →
      (List.zipWith (fun v w => v + c * w) l1 l2).sum = l1.sum + c * l2.sum := by
  intro l1
  induction l1 with
  | nil =>
    intro l2 h
    cases l2 with
    | nil => simp
    | cons b bs => simp at h
  | cons a as ih =>
    intro l2 h
    cases l2 with
    | nil => simp at h
    | cons b bs =>
      simp only [List.zipWith_cons_cons, List.sum_cons]
      rw [ih bs (by simpa using h)]
      ring

/-- Claim C6 fails as stated: with target weights [1/2, 1/2] (summing to 1),
current values [100, 0] and order volume 10, the clipped per-symbol volumes
are [0, 55] — the first coin's over-allocation turns into an excess, no
shortfall redistribution happens, and the final volumes sum to 55, missing
the claimed V = 10 by far more than 1e-6. -/
theorem rebalancing_volumes_counterexample :
    rebalancing_volumes [1/2, 1/2] [100, 0] 10 = [0, 55] ∧
    1 / 1000000 < (rebalancing_volumes [1/2, 1/2] [100, 0] 10).sum - 10 := by
  have h : rebalancing_volumes [1/2, 1/2] [100, 0] 10 = [0, 55] := by
    norm_num [rebalancing_volumes, clipped_volumes, absolute_error, max_def]
  refine ⟨h, ?_⟩
  rw [h]
  norm_num

/-- Claim C6 (amended): with target weights summing to 1 and non-negative,
every final rebalancing volume is non-negative, and the final volumes sum to
the order volume V whenever the clipped raw volumes do not already exceed V
(the shortfall case, which is the only case the redistribution handles; a
clipping excess is returned unscaled). -/
theorem rebalancing_volumes_spec (index_weights values : List ℚ) (volume : ℚ)
    (hlen : values.length = index_weights.length)
    (hsum : index_weights.sum = 1)
    (hnn : ∀ w ∈ index_weights, 0 ≤ w) :
    (∀ v ∈ rebalancing_volumes index_weights values volume, 0 ≤ v) ∧
    ((clipped_volumes index_weights values volume).sum ≤ volume →
      (rebalancing_volumes index_weights values volume).sum = volume) := by
  have hCnn : ∀ v ∈ clipped_volumes index_weights values volume, 0 ≤ v := by
    intro v hv
    obtain ⟨u, _, rfl⟩ := List.mem_map.1 hv
    exact le_max_right _ _
  have hClen : (clipped_volumes index_weights values volume).length =
      index_weights.length := by
    simp [clipped_volumes, absolute_error, hlen]
  constructor
  · intro v hv
    simp only [rebalancing_volumes] at hv
    split at hv
    · next hlt =>
      obtain ⟨a, ha, b, hb, rfl⟩ := mem_zipWith hv
      have : (0 : ℚ) ≤ (volume - (clipped_volumes index_weights values volume).sum) * b :=
        mul_nonneg (by linarith) (hnn b hb)
      have := hCnn a ha
      linarith
    · exact hCnn v hv
  · intro hle
    simp only [rebalancing_volumes]
    split
    · next hlt =>
      rw [sum_zipWith_add_mul _ _ _ hClen, hsum]
      ring
    · next hlt =>
      have := not_lt.1 hlt
      linarith

/-- Witness for C6 (amended) at concrete inputs (including discharging the
shortfall-case hypothesis). -/
theorem rebalancing_volumes_spec_witness :
    (∀ v ∈ rebalancing_volumes [1/2, 1/2] [0, 0] 10, 0 ≤ v) ∧
    (rebalancing_volumes [1/2, 1/2] [0, 0] 10).sum = 10 :=
  ⟨(rebalancing_volumes_spec [1/2, 1/2] [0, 0] 10 (by decide) (by norm_num) (by norm_num)).1,
   (rebalancing_volumes_spec [1/2, 1/2] [0, 0] 10 (by decide) (by norm_num) (by norm_num)).2
     (by norm_num [clipped_volumes, absolute_error, max_def])⟩

/-- Pairs of a list zipped with its own image are function graphs. -/
theorem zip_map_self {α β : Type} (g : α → β) :
    ∀ (l : List α) (p : α × β), p ∈ l.zip (l.map g) → p.2 = g p.1 := by
  intro l
  induction l with
  | nil => intro p h; simp at h
  | cons a as ih =>
    intro p h
    simp only [List.map_cons, List.zip_cons_cons, List.mem_cons] at h
    rcases h with h | h
    · subst h; rfl
    · exact ih p h

/-- Claim C7 (amended): whenever the raw weight vector of the lower-cased
requested symbols exists and has a non-zero sum — always the case for the
equal and custom schemes, and for the market-cap schemes exactly when every
requested index member has a unique market-data row — `fetch_index_weights`
returns exactly its normalization: the weights sum to 1, and under the
custom scheme a symbol absent from the custom weight table gets weight 0.
The unguarded claim is false: see the counterexample below, where a list
containing an eligible symbol still makes the function raise. -/
theorem fetch_index_weights_sum_one (env : WeightsEnv) (symbols : List String)
    (ws : List ℚ)
    (hraw : raw_index_weights env (symbols.map str_lower) = some ws)
    (hsum : ws.sum ≠ 0) :
    fetch_index_weights env (some symbols) =
      some (symbols.map str_lower, normalize_weights ws) ∧
    (normalize_weights ws).sum = 1 ∧
    (env.portfolio_weighting = .custom →
      ∀ p ∈ (symbols.map str_lower).zip (normalize_weights ws),
        env.custom_weights.lookup p.1 = none → p.2 = 0) := by
  refine ⟨?_, ?_, ?_⟩
  · simp [fetch_index_weights, hraw]
  · simp [normalize_weights, sum_map_div, div_self hsum]
  · intro hcu p hp hlook
    rw [raw_index_weights, hcu] at hraw
    have hws := Option.some.inj hraw
    subst hws
    rw [normalize_weights, List.map_map] at hp
    have := zip_map_self _ _ _ hp
    rw [this]
    simp [hlook]

/-- Witness for C7 at the concrete custom-scheme environment. -/
theorem fetch_index_weights_sum_one_witness :
    fetch_index_weights env_custom (some ["btc", "eth"]) =
      some (["btc", "eth"].map str_lower, normalize_weights [3, 0]) ∧
    (normalize_weights [3, 0]).sum = 1 ∧
    (env_custom.portfolio_weighting = .custom →
      ∀ p ∈ (["btc", "eth"].map str_lower).zip (normalize_weights [3, 0]),
        env_custom.custom_weights.lookup p.1 = none → p.2 = 0) :=
  fetch_index_weights_sum_one env_custom ["btc", "eth"] [3, 0] (by decide) (by norm_num)

/-- Claim C7 fails as frozen: under the raw market-cap scheme, the non-empty
request ["btc", "foo"] contains the eligible index symbol "btc" (it is an
index member with a unique market-data row), yet `fetch_index_weights`
raises (pandas `.item()` on the data-less index member "foo", modelled as
`none`) instead of returning any weight vector summing to 1. -/
theorem fetch_index_weights_sum_counterexample :
    env_mcap.portfolio_weighting = .market_cap ∧
    "btc" ∈ env_mcap.cherry_pick_symbols ∧
    (market_cap_item env_mcap.market_rows "btc").isSome ∧
    fetch_index_weights env_mcap (some ["btc", "foo"]) = none := by decide

/-- Claim C8 fails as stated: "foo" is part of the configured index but has
no market-data row, and the raw market-cap weighting raises (pandas
`.item()` on an empty selection, modelled as `none`) instead of giving the
symbol weight 0. -/
theorem fetch_index_weights_missing_row_counterexample :
    fetch_index_weights env_mcap (some ["btc", "foo"]) = none := by decide

/-- `map_option` succeeds pointwise. -/
theorem map_option_eq_some_map {α β : Type} (f : α → Option β) (g : α → β) :
    ∀ l : List α, (∀ a ∈ l, f a = some (g a)) → map_option f l = some (l.map g) := by
  intro l
  induction l with
  | nil => intro _; rfl
  | cons a as ih =>
    intro h
    have ha := h a (by simp)
    have has := ih (fun x hx => h x (by simp [hx]))
    simp [map_option, ha, has]

/-- Claim C8 (amended): under the market-cap based weighting schemes a
requested symbol that is not part of the configured index contributes
weight 0 without any market-data lookup, and the operation returns a result
whenever every requested index member has a unique market-data row; it is
the index members without such a row that make the operation raise
(see the counterexample), rather than contributing 0. -/
theorem fetch_index_weights_non_index_zero (env : WeightsEnv) (symbols : List String)
    (hw : env.portfolio_weighting = .market_cap ∨
      env.portfolio_weighting = .sqrt_market_cap ∨
      env.portfolio_weighting = .sqrt_sqrt_market_cap ∨
      env.portfolio_weighting = .cbrt_market_cap)
    (hrows : ∀ s ∈ symbols.map str_lower, s ∈ env.cherry_pick_symbols →
      (market_cap_item env.market_rows s).isSome)
    (hs0 : env.sqrtFn 0 = 0) (hc0 : env.cbrtFn 0 = 0) :
    ∃ ws, fetch_index_weights env (some symbols) =
        some (symbols.map str_lower, normalize_weights ws) ∧
      ∀ p ∈ (symbols.map str_lower).zip (normalize_weights ws),
        p.1 ∉ env.cherry_pick_symbols → p.2 = 0 := by
  set l := symbols.map str_lower with hl
  set g : String → ℚ := fun s =>
    if s ∈ env.cherry_pick_symbols then (market_cap_item env.market_rows s).getD 0
    else 0 with hg
  have hmapM : map_option (fun s =>
      if s ∈ env.cherry_pick_symbols then market_cap_item env.market_rows s
      else some 0) l = some (l.map g) := by
    apply map_option_eq_some_map
    intro a ha
    by_cases hc : a ∈ env.cherry_pick_symbols
    · obtain ⟨c, hcval⟩ := Option.isSome_iff_exists.1 (hrows a ha hc)
      simp [hg, hc, hcval]
    · simp [hg, hc]
  have key : ∃ t : ℚ → ℚ, t 0 = 0 ∧
      raw_index_weights env l = some ((l.map g).map t) := by
    rcases hw with hwc | hwc | hwc | hwc
    · refine ⟨id, rfl, ?_⟩
      simp only [raw_index_weights, hwc, hmapM, Option.map_some']
      simp
    · refine ⟨env.sqrtFn, hs0, ?_⟩
      simp only [raw_index_weights, hwc, hmapM, Option.map_some']
    · refine ⟨fun x => env.sqrtFn (env.sqrtFn x), by simp only [hs0], ?_⟩
      simp only [raw_index_weights, hwc, hmapM, Option.map_some']
    · refine ⟨env.cbrtFn, hc0, ?_⟩
      simp only [raw_index_weights, hwc, hmapM, Option.map_some']
  obtain ⟨t, ht0, htraw⟩ := key
  refine ⟨(l.map g).map t, ?_, ?_⟩
  · simp [fetch_index_weights, htraw]
  · intro p hp hmem
    rw [normalize_weights, List.map_map, List.map_map] at hp
    have hval := zip_map_self _ _ _ hp
    rw [hval]
    have hgz : g p.1 = 0 := by simp [hg, hmem]
    simp [Function.comp, hgz, ht0]

/-- Witness for C8 (amended): "bar" is not part of the index and receives
weight 0 while the operation succeeds. -/
theorem fetch_index_weights_non_index_zero_witness :
    ∃ ws, fetch_index_weights env_mcap (some ["btc", "bar"]) =
        some (["btc", "bar"].map str_lower, normalize_weights ws) ∧
      ∀ p ∈ (["btc", "bar"].map str_lower).zip (normalize_weights ws),
        p.1 ∉ env_mcap.cherry_pick_symbols → p.2 = 0 :=
  fetch_index_weights_non_index_zero env_mcap ["btc", "bar"] (Or.inl rfl)
    (by decide) rfl rfl

/-- When every non-base pair's ticker is listed on the exchange, the
availability loop leaves the problems record unchanged. -/
theorem availability_problems_pass (env : TradingEnv) :
    ∀ (pairs : List (String × ℚ)) (p : Problems),
      (∀ q ∈ pairs, str_lower q.1 = str_lower env.baseSymbol ∨
        (env.markets (ticker_of env.baseSymbol q.1)).isSome) →
      availability_problems env pairs p = p := by
  intro pairs
  induction pairs with
  | nil => intro p _; rfl
  | cons q rest ih =>
    intro p h
    obtain ⟨s, w⟩ := q
    have hq := h (s, w) (by simp)
    have hrest := fun x hx => h x (List.mem_cons_of_mem _ hx)
    rcases hq with hq | hq
    · simp [availability_problems, hq, ih _ hrest]
    · by_cases hbase : str_lower s = str_lower env.baseSymbol
      · simp [availability_problems, hbase, ih _ hrest]
      · simp [availability_problems, hbase, hq, ih _ hrest]

/-- The below-limit loop records skippable problems but never touches the
fail flag or the adjusted volume. -/
theorem limit_problems_keeps :
    ∀ (l : List (String × String)) (p : Problems),
      (limit_problems l p).fail = p.fail ∧
      (limit_problems l p).adjusted_volume = p.adjusted_volume := by
  intro l
  induction l with
  | nil => intro p; exact ⟨rfl, rfl⟩
  | cons q rest ih =>
    intro p
    obtain ⟨s, r⟩ := q
    simpa [limit_problems] using ih _

/-- A plain balance shortfall with the (upper-cased) base symbol not among
the ordered symbols always hard-fails the batch: the 2%-window adjustment is
unreachable on this path. -/
theorem check_order_executable_insufficient (env : TradingEnv)
    (symbols : List String) (weights : List ℚ) (volume : ℚ)
    (havail : ∀ q ∈ symbols.zip weights,
      str_lower q.1 = str_lower env.baseSymbol ∨
      (env.markets (ticker_of env.baseSymbol q.1)).isSome)
    (hnomem : str_upper env.baseSymbol ∉ symbols)
    (hbal : balance_of env < volume) :
    (check_order_executable env symbols weights volume).fail = true ∧
    (check_order_executable env symbols weights volume).adjusted_volume = none := by
  have hap := availability_problems_pass env (symbols.zip weights) empty_problems havail
  have hkeep := limit_problems_keeps
    ((check_order_limits env (symbols.zip weights) volume false).1.zip
      (check_order_limits env (symbols.zip weights) volume false).2) empty_problems
  simp only [check_order_executable]
  rw [hap]
  have h1 : empty_problems.occurred = false := rfl
  simp only [h1, Bool.false_eq_true, if_false]
  rw [if_neg hnomem, if_pos hbal]
  have h2 : empty_problems.adjusted_volume = none := rfl
  refine ⟨?_, ?_⟩ <;> simp [hkeep.2, h2]

/-- Claim C3 fails as stated: the account holds 99 while the order needs 100
(a 1% shortfall, within the claimed 2% window), the ETH ticker is available,
yet the pre-flight check hard-fails the batch and records no adjusted
volume — the auto-adjustment only exists on the path where the upper-cased
base symbol is an element of the ordered symbols. -/
theorem check_order_executable_counterexample :
    balance_of env_balance = 99 ∧
    100 - balance_of env_balance ≤ 2 / 100 * 100 ∧
    (check_order_executable env_balance ["eth"] [1] 100).fail = true ∧
    (check_order_executable env_balance ["eth"] [1] 100).adjusted_volume = none := by
  have h := check_order_executable_insufficient env_balance ["eth"] [1] 100
    (by intro q hq; right; simp at hq; subst hq; decide)
    (by decide) (by norm_num [balance_of, env_balance])
  exact ⟨rfl, by norm_num [balance_of, env_balance], h.1, h.2⟩

/-- Claim C3 (amended): the 2% auto-adjustment exists only on the path where
the upper-cased base symbol is literally an element of the ordered symbols
(see the counterexample for the other path); there the balance is compared
against volume plus the base-symbol index holdings, and an available balance
strictly above 98% of the volume (and non-zero) clears the fail flag,
records it as `adjusted_volume`, and lets `weighted_buy_order` proceed,
placing the orders with the reduced volume; an available balance at or below
the 98% mark hard-fails the batch. -/
theorem check_order_executable_adjusted (env : TradingEnv)
    (symbols : List String) (weights : List ℚ) (volume v0 : ℚ)
    (ot : OrderTypeEnum)
    (havail : ∀ q ∈ symbols.zip weights,
      str_lower q.1 = str_lower env.baseSymbol ∨
      (env.markets (ticker_of env.baseSymbol q.1)).isSome)
    (hmem : str_upper env.baseSymbol ∈ symbols)
    (hshort : balance_of env < volume + env.indexAmountOfBase)
    (hv : env.toBaseSymbol v0 = volume) :
    (98 / 100 * volume < balance_of env - env.indexAmountOfBase →
      balance_of env - env.indexAmountOfBase ≠ 0 →
      (check_order_executable env symbols weights volume).fail = false ∧
      (check_order_executable env symbols weights volume).adjusted_volume =
        some (balance_of env - env.indexAmountOfBase) ∧
      weighted_buy_order env symbols weights v0 ot =
        { problems := check_order_executable env symbols weights volume
          order_ids := (place_orders env ot
            (balance_of env - env.indexAmountOfBase) (symbols.zip weights)).1
          symbols := (place_orders env ot
            (balance_of env - env.indexAmountOfBase) (symbols.zip weights)).2.1
          invalid_symbols := (place_orders env ot
            (balance_of env - env.indexAmountOfBase) (symbols.zip weights)).2.2 }) ∧
    (balance_of env - env.indexAmountOfBase ≤ 98 / 100 * volume →
      (check_order_executable env symbols weights volume).fail = true) := by
  have hap := availability_problems_pass env (symbols.zip weights) empty_problems havail
  have hkeep := limit_problems_keeps
    ((check_order_limits env (symbols.zip weights) volume false).1.zip
      (check_order_limits env (symbols.zip weights) volume false).2) empty_problems
  have h1 : empty_problems.occurred = false := rfl
  have h2 : empty_problems.adjusted_volume = none := rfl
  constructor
  · intro hwin hne
    have hfix : (check_order_executable env symbols weights volume).fail = false ∧
        (check_order_executable env symbols weights volume).adjusted_volume =
          some (balance_of env - env.indexAmountOfBase) := by
      simp only [check_order_executable]
      rw [hap]
      simp only [h1, Bool.false_eq_true, if_false]
      rw [if_pos hmem, if_pos hshort, if_pos hwin]
      refine ⟨?_, ?_⟩ <;> simp [hne]
    refine ⟨hfix.1, hfix.2, ?_⟩
    simp only [weighted_buy_order, hv, hfix.1, hfix.2, Bool.false_eq_true,
      if_false, Option.getD_some]
  · intro hout
    simp only [check_order_executable]
    rw [hap]
    simp only [h1, Bool.false_eq_true, if_false]
    rw [if_pos hmem, if_pos hshort, if_neg (not_lt.2 hout)]
    split <;> simp [hkeep.2, h2]

/-- Witness for C3 (amended): with the base symbol EUR among the ordered
symbols, 99 available against a volume of 100 (1% shortfall, no index
holdings) is auto-adjusted and the orders are placed with volume 99. -/
theorem check_order_executable_adjusted_witness :
    (check_order_executable env_balance ["eth", "EUR"] [1/2, 1/2] 100).fail = false ∧
    (check_order_executable env_balance ["eth", "EUR"] [1/2, 1/2] 100).adjusted_volume =
      some (balance_of env_balance - env_balance.indexAmountOfBase) ∧
    weighted_buy_order env_balance ["eth", "EUR"] [1/2, 1/2] 100 .market =
      { problems := check_order_executable env_balance ["eth", "EUR"] [1/2, 1/2] 100
        order_ids := (place_orders env_balance .market
          (balance_of env_balance - env_balance.indexAmountOfBase)
          (["eth", "EUR"].zip [1/2, 1/2])).1
        symbols := (place_orders env_balance .market
          (balance_of env_balance - env_balance.indexAmountOfBase)
          (["eth", "EUR"].zip [1/2, 1/2])).2.1
        invalid_symbols := (place_orders env_balance .market
          (balance_of env_balance - env_balance.indexAmountOfBase)
          (["eth", "EUR"].zip [1/2, 1/2])).2.2 } :=
  (check_order_executable_adjusted env_balance ["eth", "EUR"] [1/2, 1/2] 100 100 .market
    (by decide) (by decide) (by norm_num [balance_of, env_balance]) rfl).1
    (by norm_num [balance_of, env_balance]) (by norm_num [balance_of, env_balance])

/-- Unfolding of one reconciliation step: the step only ever appends. -/
theorem reconcile_step_eq (env : LedgerEnv) (acc : List Trade × List String)
    (p : PendingOrder) :
    reconcile_step env acc p =
      (acc.1 ++ step_trades env p, acc.2 ++ step_fetched env p) := by
  simp only [reconcile_step, step_trades, step_fetched]
  split
  · simp
  · cases h : env.fetch_order p.id p.symbol with
    | still_open => simp [h]
    | closed o => simp [h, add_trade, reconciled_trade]

/-- The reconciliation fold appends the per-order trades and fetched ids. -/
theorem reconcile_foldl_eq (env : LedgerEnv) :
    ∀ (missing : List PendingOrder) (acc : List Trade × List String),
      missing.foldl (reconcile_step env) acc =
        (acc.1 ++ missing.flatMap (step_trades env),
         acc.2 ++ missing.flatMap (step_fetched env)) := by
  intro missing
  induction missing with
  | nil => intro acc; simp
  | cons p rest ih =>
    intro acc
    rw [List.foldl_cons, ih, reconcile_step_eq]
    simp [List.flatMap_cons]

/-- Closed form of `reconcile_pending`. -/
theorem reconcile_pending_eq (env : LedgerEnv) (order_ids : List PendingOrder)
    (trades_df : List Trade) :
    reconcile_pending env order_ids trades_df =
      (trades_df ++
        (order_ids.filter
          (fun p => !(trades_df.map Trade.id).contains p.id)).flatMap (step_trades env),
       (order_ids.filter
          (fun p => !(trades_df.map Trade.id).contains p.id)).flatMap (step_fetched env)) := by
  simp only [reconcile_pending]
  rw [reconcile_foldl_eq]
  simp

/-- Every trade appended by the reconciliation of `order_ids` against
`trades_df` carries the id of a pending order that was not yet in the
table. -/
theorem reconcile_append_ids (env : LedgerEnv) (order_ids : List PendingOrder)
    (trades_df : List Trade) (t : Trade)
    (ht : t ∈ (order_ids.filter
      (fun p => !(trades_df.map Trade.id).contains p.id)).flatMap (step_trades env)) :
    t.id ∉ trades_df.map Trade.id ∧
    t ∈ (reconcile_pending env order_ids trades_df).1 := by
  obtain ⟨q, hq, hmem⟩ := List.mem_flatMap.1 ht
  have hqf := List.of_mem_filter hq
  have hqid : q.id ∉ trades_df.map Trade.id := by
    intro hin
    rw [Bool.not_eq_true', ← Bool.not_eq_true] at hqf
    exact hqf (List.elem_iff.2 hin)
  have htid : t.id = q.id := by
    simp only [step_trades] at hmem
    split at hmem
    · simp at hmem
    · split at hmem
      · simp at hmem
      · simp only [List.mem_singleton] at hmem
        subst hmem
        rfl
  constructor
  · rw [htid]; exact hqid
  · rw [reconcile_pending_eq]
    exact List.mem_append_right _ ht

/-- Claim C5: pending orders whose id already appears as a trade id are
neither fetched nor appended by the reconciliation, and the reconciliation
is idempotent: a second run over the same pending-order set (same clock,
same exchange answers) returns the trades table of the first run
unchanged. -/
theorem reconcile_pending_idempotent (env : LedgerEnv)
    (order_ids : List PendingOrder) (trades_df : List Trade) :
    (∀ p ∈ order_ids, p.id ∈ trades_df.map Trade.id →
      p.id ∉ (reconcile_pending env order_ids trades_df).2 ∧
      (reconcile_pending env order_ids trades_df).1.filter
          (fun t => t.id = p.id) =
        trades_df.filter (fun t => t.id = p.id)) ∧
    (reconcile_pending env order_ids
        (reconcile_pending env order_ids trades_df).1).1 =
      (reconcile_pending env order_ids trades_df).1 := by
  constructor
  · intro p hp hid
    constructor
    · rw [reconcile_pending_eq]
      intro hmemf
      simp only [List.mem_flatMap] at hmemf
      obtain ⟨q, hq, hqmem⟩ := hmemf
      have hqf := List.of_mem_filter hq
      simp only [step_fetched] at hqmem
      split at hqmem
      · simp at hqmem
      · simp only [List.mem_singleton] at hqmem
        rw [Bool.not_eq_true', ← Bool.not_eq_true] at hqf
        exact hqf (List.elem_iff.2 (hqmem ▸ hid))
    · rw [reconcile_pending_eq]
      simp only [List.filter_append]
      have hnil : ((order_ids.filter
          (fun q => !(trades_df.map Trade.id).contains q.id)).flatMap
            (step_trades env)).filter (fun t => t.id = p.id) = [] := by
        rw [List.filter_eq_nil_iff]
        intro t ht
        have := (reconcile_append_ids env order_ids trades_df t ht).1
        simp only [decide_eq_true_eq]
        intro heq
        exact this (heq ▸ hid)
      rw [hnil, List.append_nil]
  · rw [reconcile_pending_eq env order_ids (reconcile_pending env order_ids trades_df).1]
    have hnil : (order_ids.filter
        (fun q => !((reconcile_pending env order_ids trades_df).1.map Trade.id).contains q.id)).flatMap
          (step_trades env) = [] := by
      rw [List.flatMap_eq_nil_iff]
      intro q hq
      have hqf := List.of_mem_filter hq
      have hqid : q.id ∉ (reconcile_pending env order_ids trades_df).1.map Trade.id := by
        intro hin
        rw [Bool.not_eq_true', ← Bool.not_eq_true] at hqf
        exact hqf (List.elem_iff.2 hin)
      by_cases hrec : env.now - q.date < 600
      · simp [step_trades, hrec]
      cases ho : env.fetch_order q.id q.symbol with
      | still_open => simp [step_trades, hrec, ho]
      | closed o =>
      have hstep : step_trades env q = [reconciled_trade env q o] := by
        simp [step_trades, hrec, ho]
      have htmem : reconciled_trade env q o ∈
          (order_ids.filter
            (fun r => !(trades_df.map Trade.id).contains r.id)).flatMap (step_trades env) := by
        refine List.mem_flatMap.2 ⟨q, ?_, by rw [hstep]; simp⟩
        refine List.mem_filter.2 ⟨List.mem_of_mem_filter hq, ?_⟩
        simp only [Bool.not_eq_eq_eq_not, Bool.not_true]
        rw [← Bool.not_eq_true]
        intro hcon
        apply hqid
        rw [reconcile_pending_eq]
        simp only [List.map_append]
        exact List.mem_append_left _ (List.elem_iff.1 hcon)
      have := (reconcile_append_ids env order_ids trades_df _ htmem).2
      exact absurd (List.mem_map.2 ⟨_, this, rfl⟩) hqid
    rw [hnil, List.append_nil]

/-- Witness for C5: order "1" is already a trade id, so it is neither fetched
nor re-appended, and running the reconciliation twice equals running it
once. -/
theorem reconcile_pending_idempotent_witness :
    (pending_one.id ∉ (reconcile_pending env_ledger [pending_one, pending_two] [trade_one]).2 ∧
      (reconcile_pending env_ledger [pending_one, pending_two] [trade_one]).1.filter
          (fun t => t.id = pending_one.id) =
        [trade_one].filter (fun t => t.id = pending_one.id)) ∧
    (reconcile_pending env_ledger [pending_one, pending_two]
        (reconcile_pending env_ledger [pending_one, pending_two] [trade_one]).1).1 =
      (reconcile_pending env_ledger [pending_one, pending_two] [trade_one]).1 :=
  ⟨(reconcile_pending_idempotent env_ledger [pending_one, pending_two] [trade_one]).1
      pending_one (by decide) (by decide),
   (reconcile_pending_idempotent env_ledger [pending_one, pending_two] [trade_one]).2⟩

/-- The fail-fast (or exhaustive) limit check returns no failing symbol
exactly when every pair passes. -/
theorem check_order_limits_nil_iff (env : TradingEnv) (volume : ℚ) (ff : Bool) :
    ∀ pairs : List (String × ℚ),
      (check_order_limits env pairs volume ff).1 = [] ↔
        ∀ q ∈ pairs, passes_limits env volume q.1 q.2 := by
  intro pairs
  induction pairs with
  | nil => simp [check_order_limits]
  | cons q0 rest ih =>
    obtain ⟨s, w⟩ := q0
    simp only [check_order_limits]
    by_cases hbase : str_lower s = str_lower env.baseSymbol
    · rw [if_pos hbase, ih]
      constructor
      · intro h q hq
        rcases List.mem_cons.1 hq with rfl | hq
        · exact Or.inl hbase
        · exact h q hq
      · intro h q hq
        exact h q (List.mem_cons_of_mem _ hq)
    · rw [if_neg hbase]
      split
      · next hm =>
        have hnp : ¬ passes_limits env volume s w := by
          simp [passes_limits, hbase, hm]
        constructor
        · intro h
          cases ff <;> simp at h
        · intro h
          exact absurd (h (s, w) (by simp)) hnp
      · next m hm =>
        by_cases h1 : w * volume / m.price ≤ m.minAmount
        · rw [if_pos h1]
          have hnp : ¬ passes_limits env volume s w := by
            simp only [passes_limits, hbase, false_or, not_exists]
            rintro m2 ⟨hm2, ha, _⟩
            rw [hm] at hm2
            rw [← Option.some.inj hm2] at ha
            exact absurd ha (not_lt.2 h1)
          constructor
          · intro h
            cases ff <;> simp at h
          · intro h
            exact absurd (h (s, w) (by simp)) hnp
        · rw [if_neg h1]
          by_cases h2 : w * volume ≤ m.minCost
          · rw [if_pos h2]
            have hnp : ¬ passes_limits env volume s w := by
              simp only [passes_limits, hbase, false_or, not_exists]
              rintro m2 ⟨hm2, _, hc⟩
              rw [hm] at hm2
              rw [← Option.some.inj hm2] at hc
              exact absurd hc (not_lt.2 h2)
            constructor
            · intro h
              cases ff <;> simp at h
            · intro h
              exact absurd (h (s, w) (by simp)) hnp
          · rw [if_neg h2, ih]
            constructor
            · intro h q hq
              rcases List.mem_cons.1 hq with rfl | hq
              · exact Or.inr ⟨m, hm, not_le.1 h1, not_le.1 h2⟩
              · exact h q hq
            · intro h q hq
              exact h q (List.mem_cons_of_mem _ hq)

/-- Renormalizing an already normalized weight vector changes nothing
(including the degenerate zero-sum case, where both sides are zero
vectors). -/
theorem normalize_weights_idem (ws : List ℚ) :
    normalize_weights (normalize_weights ws) = normalize_weights ws := by
  unfold normalize_weights
  rw [List.map_map, sum_map_div]
  apply List.map_congr_left
  intro x _
  by_cases h : ws.sum = 0
  · simp [h]
  · simp [Function.comp, div_self h]

/-- Normalization commutes with list reversal. -/
theorem normalize_weights_reverse (ws : List ℚ) :
    normalize_weights ws.reverse = (normalize_weights ws).reverse := by
  unfold normalize_weights
  rw [List.sum_reverse, List.map_reverse]

/-- Reading a list back at the index range reproduces the list. -/
theorem map_getD_range {α : Type} (d : α) :
    ∀ l : List α, (List.range l.length).map (fun i => l.getD i d) = l := by
  intro l
  induction l with
  | nil => rfl
  | cons x xs ih =>
    rw [List.length_cons, List.range_succ_eq_map, List.map_cons, List.map_map]
    have htail : List.map ((fun i => (x :: xs).getD i d) ∘ Nat.succ)
        (List.range xs.length) = xs := by
      rw [show ((fun i => (x :: xs).getD i d) ∘ Nat.succ) =
        (fun i => xs.getD i d) from rfl]
      exact ih
    rw [htail]
    rfl

/-- Selecting a list at its own argsort permutes it. -/
theorem argsort_gather_perm (ws : List ℚ) :
    (gather ws (argsort ws) 0).Perm ws := by
  have h1 : (argsort ws).Perm (List.range ws.length) := List.mergeSort_perm _ _
  have h2 := h1.map (fun i => ws.getD i 0)
  rw [map_getD_range] at h2
  exact h2

/-- Selecting a list at its own argsort sorts it ascendingly. -/
theorem argsort_gather_sorted (ws : List ℚ) :
    (gather ws (argsort ws) 0).Sorted (· ≤ ·) := by
  have hp := @List.sorted_mergeSort ℕ (fun i j => decide (ws.getD i 0 ≤ ws.getD j 0))
    (by intro a b c h1 h2; simp only [decide_eq_true_eq] at h1 h2 ⊢; exact le_trans h1 h2)
    (by intro a b; simp [le_total]) (List.range ws.length)
  unfold gather argsort
  rw [List.Sorted, List.pairwise_map]
  exact hp.imp (by intro a b h; simpa using h)

/-- The argsort of an ascendingly sorted list is the identity permutation. -/
theorem argsort_of_sorted (ws : List ℚ) (h : ws.Sorted (· ≤ ·)) :
    argsort ws = List.range ws.length := by
  unfold argsort
  apply List.mergeSort_of_sorted
  rw [List.pairwise_iff_getElem]
  intro i j hi hj hij
  rw [List.length_range] at hi hj
  simp only [List.getElem_range, decide_eq_true_eq]
  rw [List.getD_eq_getElem _ _ hi, List.getD_eq_getElem _ _ hj]
  exact List.pairwise_iff_getElem.1 h i j hi hj hij

/-- Selecting at the reversed index range reverses the list. -/
theorem gather_range_reverse {α : Type} (xs : List α) (d : α) :
    gather xs (List.range xs.length).reverse d = xs.reverse := by
  unfold gather
  rw [List.map_reverse, map_getD_range]

/-- Zipping commutes with reversing equally long lists. -/
theorem zip_reverse_eq {α β : Type} :
    ∀ (l1 : List α) (l2 : List β), l1.length = l2.length →
      l1.reverse.zip l2.reverse = (l1.zip l2).reverse := by
  intro l1
  induction l1 with
  | nil =>
    intro l2 h
    cases l2 with
    | nil => rfl
    | cons b bs => simp at h
  | cons a as ih =>
    intro l2 h
    cases l2 with
    | nil => simp at h
    | cons b bs =>
      have hlen : as.length = bs.length := by simpa using h
      simp only [List.reverse_cons]
      rw [List.zip_append (by simp [hlen]), ih bs hlen]
      simp

/-- In a sorted list with positive sum, every nonempty tail still has a
positive sum (the head is a smallest element). -/
theorem sorted_tail_sum_pos (x : ℚ) (xs : List ℚ)
    (hs : (x :: xs).Sorted (· ≤ ·)) (hpos : 0 < (x :: xs).sum) (hne : xs ≠ []) :
    0 < xs.sum := by
  by_contra hle
  push_neg at hle
  obtain ⟨y, hy, hy0⟩ : ∃ y ∈ xs, y ≤ 0 := by
    by_contra hall
    push_neg at hall
    exact absurd (List.sum_pos xs hall hne) (not_lt.2 hle)
  have hx : x ≤ y := List.rel_of_sorted_cons hs y hy
  have hsum : (x :: xs).sum = x + xs.sum := by simp
  rw [hsum] at hpos
  linarith

/-- Normalization keeps a weight vector sorted, both when the sum is
positive and in the degenerate all-zero case. -/
theorem normalize_weights_sorted (ws : List ℚ) (hs : ws.Sorted (· ≤ ·))
    (hd : 0 < ws.sum ∨ ∀ x ∈ ws, x = 0) :
    (normalize_weights ws).Sorted (· ≤ ·) := by
  unfold normalize_weights
  rw [List.Sorted, List.pairwise_map]
  refine List.Pairwise.imp_of_mem ?_ hs
  intro a b ha hb hab
  rcases hd with hpos | hzero
  · exact (div_le_div_iff_of_pos_right hpos).2 hab
  · rw [hzero a ha, hzero b hb]

/-- The loop invariant of `vcw_loop` survives dropping the head. -/
theorem tail_invariant (x : ℚ) (xs : List ℚ)
    (hs : (x :: xs).Sorted (· ≤ ·))
    (hd : 0 < (x :: xs).sum ∨ ∀ w ∈ x :: xs, w = 0) :
    0 < xs.sum ∨ ∀ w ∈ xs, w = 0 := by
  rcases hd with hpos | hzero
  · cases xs with
    | nil =>
      right
      intro w hw
      simp at hw
    | cons y ys =>
      left
      exact sorted_tail_sum_pos x (y :: ys) hs hpos (by simp)
  · right
    intro w hw
    exact hzero w (List.mem_cons_of_mem _ hw)

/-- Selecting from an all-zero list yields zeros (also at out-of-range
indices, where the numpy default 0 applies). -/
theorem gather_all_zero (ws : List ℚ) (idx : List ℕ)
    (hz : ∀ x ∈ ws, x = 0) : ∀ x ∈ gather ws idx 0, x = 0 := by
  intro x hx
  obtain ⟨i, _, rfl⟩ := List.mem_map.1 hx
  rw [List.getD_eq_getElem?_getD]
  by_cases hi : i < ws.length
  · rw [List.getElem?_eq_getElem hi]
    exact hz _ (List.getElem_mem hi)
  · rw [List.getElem?_eq_none (not_lt.1 hi)]
    rfl

/-- Selecting at a dropped index list drops from the selection. -/
theorem gather_drop {α : Type} (xs : List α) (idx : List ℕ) (n : ℕ) (d : α) :
    gather xs (idx.drop n) d = (gather xs idx d).drop n := by
  unfold gather
  rw [List.map_drop]

/-- Every pair returned by a successful round of the weight-correction loop
passes the limit check, provided the loop runs on weight-ascending pairs
whose weights sum positively (or are all zero): the final re-sorting then
keeps each symbol attached to its own weight. -/
theorem vcw_loop_passes (env : TradingEnv) (volume : ℚ) :
    ∀ (L : List (String × ℚ)) (r0 : List String),
      (L.map Prod.snd).Sorted (· ≤ ·) →
      (0 < (L.map Prod.snd).sum ∨ ∀ w ∈ L.map Prod.snd, w = 0) →
      ∀ q ∈ (vcw_loop env volume L r0).1.zip
          (normalize_weights (vcw_loop env volume L r0).2.1),
        passes_limits env volume q.1 q.2 := by
  intro L
  induction L with
  | nil =>
    intro r0 _ _ q hq
    simp [vcw_loop] at hq
  | cons p rest ih =>
    intro r0 hsort hd q hq
    by_cases hc : (check_order_limits env
        (((p :: rest).map Prod.fst).zip (normalize_weights ((p :: rest).map Prod.snd)))
        volume true).1.isEmpty
    · have hres : vcw_loop env volume (p :: rest) r0 =
          (gather ((p :: rest).map Prod.fst)
            (argsort (normalize_weights ((p :: rest).map Prod.snd))).reverse "",
           (normalize_weights ((p :: rest).map Prod.snd)).reverse, none) := by
        simp only [vcw_loop, hc, if_true]
      have hcwsorted : (normalize_weights ((p :: rest).map Prod.snd)).Sorted (· ≤ ·) :=
        normalize_weights_sorted _ hsort hd
      have hargsort := argsort_of_sorted _ hcwsorted
      have hlen : (normalize_weights ((p :: rest).map Prod.snd)).length =
          ((p :: rest).map Prod.fst).length := by
        simp [normalize_weights]
      rw [hres] at hq
      simp only at hq
      rw [hargsort, hlen, gather_range_reverse, normalize_weights_reverse,
        normalize_weights_idem,
        zip_reverse_eq _ _ hlen.symm, List.mem_reverse] at hq
      have hnil := List.isEmpty_iff.1 hc
      exact (check_order_limits_nil_iff env volume true _).1 hnil q hq
    · have hres : vcw_loop env volume (p :: rest) r0 =
          vcw_loop env volume rest
            (check_order_limits env
              (((p :: rest).map Prod.fst).zip
                (normalize_weights ((p :: rest).map Prod.snd))) volume true).2 := by
        simp only [vcw_loop, hc, Bool.false_eq_true, if_false]
      rw [hres] at hq
      exact ih _ hsort.of_cons (tail_invariant _ _ hsort hd) q hq

/-- Claim C1: whenever `volume_corrected_weights` returns a non-empty symbol
set, no returned symbol other than the base symbol has an implied notional
(weight·volume, after renormalizing the returned weights) at or below its
exchange minimum notional, nor an implied amount (notional/price) at or
below its exchange minimum amount. -/
theorem volume_corrected_weights_invariant (env : TradingEnv)
    (symbols : List String) (weights0 : List ℚ) (v : ℚ)
    (hne : (volume_corrected_weights env symbols weights0 v).1 ≠ []) :
    ∀ q ∈ (volume_corrected_weights env symbols weights0 v).1.zip
        (normalize_weights (volume_corrected_weights env symbols weights0 v).2.1),
      ¬ str_lower q.1 = str_lower env.baseSymbol →
      ∃ m, env.markets (ticker_of env.baseSymbol q.1) = some m ∧
        m.minAmount < q.2 * env.toBaseSymbol v / m.price ∧
        m.minCost < q.2 * env.toBaseSymbol v := by
  intro q hq hnotbase
  have hp : passes_limits env (env.toBaseSymbol v) q.1 q.2 := by
    by_cases hc : (check_order_limits env
        (symbols.zip (normalize_weights weights0)) (env.toBaseSymbol v) true).1.isEmpty
    · have hres : volume_corrected_weights env symbols weights0 v =
          (symbols, normalize_weights weights0, some []) := by
        simp only [volume_corrected_weights, hc, if_true]
      rw [hres] at hq
      simp only [normalize_weights_idem] at hq
      exact (check_order_limits_nil_iff env _ true _).1 (List.isEmpty_iff.1 hc) q hq
    · set cw := normalize_weights weights0 with hcw
      set L := (gather symbols ((argsort cw).drop 1) "").zip
        (gather cw ((argsort cw).drop 1) 0) with hL
      have hres : volume_corrected_weights env symbols weights0 v =
          vcw_loop env (env.toBaseSymbol v) L
            (check_order_limits env (symbols.zip cw) (env.toBaseSymbol v) true).2 := by
        simp only [volume_corrected_weights, hc, Bool.false_eq_true, if_false, hL, hcw]
      have hlen : (gather cw ((argsort cw).drop 1) 0).length =
          (gather symbols ((argsort cw).drop 1) "").length := by
        simp [gather]
      have hsnd : L.map Prod.snd = gather cw ((argsort cw).drop 1) 0 :=
        List.map_snd_zip _ _ (le_of_eq hlen)
      have hdrop : gather cw ((argsort cw).drop 1) 0 =
          (gather cw (argsort cw) 0).drop 1 := gather_drop _ _ _ _
      have hscw_sorted := argsort_gather_sorted cw
      have hsorted : (L.map Prod.snd).Sorted (· ≤ ·) := by
        rw [hsnd, hdrop]
        exact List.Pairwise.sublist (List.drop_sublist _ _) hscw_sorted
      have hdisj : 0 < (L.map Prod.snd).sum ∨ ∀ w ∈ L.map Prod.snd, w = 0 := by
        by_cases hz : weights0.sum = 0
        · right
          rw [hsnd]
          apply gather_all_zero
          intro x hx
          obtain ⟨y, _, rfl⟩ := List.mem_map.1 hx
          rw [hz, div_zero]
        · have hsum1 : cw.sum = 1 := by
            rw [hcw]
            unfold normalize_weights
            rw [sum_map_div, div_self hz]
          have hscw_sum : (gather cw (argsort cw) 0).sum = 1 := by
            rw [(argsort_gather_perm cw).sum_eq, hsum1]
          rw [hsnd, hdrop]
          cases hsc : gather cw (argsort cw) 0 with
          | nil =>
            right
            intro w hw
            simp at hw
          | cons x xs =>
            rw [hsc] at hscw_sorted hscw_sum
            exact tail_invariant x xs hscw_sorted (Or.inl (by rw [hscw_sum]; norm_num))
      rw [hres] at hq
      exact vcw_loop_passes env _ L _ hsorted hdisj q hq
  rcases hp with hb | hgood
  · exact absurd hb hnotbase
  · exact hgood

/-- Witness for C1: a one-coin order on the scenario exchange returns a
non-empty set and satisfies the limit invariant. -/
theorem volume_corrected_weights_invariant_witness :
    (volume_corrected_weights env_scenario ["A"] [1] 100).1 ≠ [] ∧
    ∀ q ∈ (volume_corrected_weights env_scenario ["A"] [1] 100).1.zip
        (normalize_weights (volume_corrected_weights env_scenario ["A"] [1] 100).2.1),
      ¬ str_lower q.1 = str_lower env_scenario.baseSymbol →
      ∃ m, env_scenario.markets (ticker_of env_scenario.baseSymbol q.1) = some m ∧
        m.minAmount < q.2 * env_scenario.toBaseSymbol 100 / m.price ∧
        m.minCost < q.2 * env_scenario.toBaseSymbol 100 := by
  have hbA : ¬ (str_lower "A" = str_lower env_scenario.baseSymbol) := by decide
  have hmA : env_scenario.markets (ticker_of env_scenario.baseSymbol "A") =
      some { price := 1, minAmount := 0, minCost := 10 } := by decide
  have htb : env_scenario.toBaseSymbol 100 = 100 := rfl
  have hn : normalize_weights [1] = [1] := by norm_num [normalize_weights]
  have hchk1 : check_order_limits env_scenario [("A", (1 : ℚ))] 100 true = ([], []) := by
    norm_num [check_order_limits, hbA, hmA]
  have hne : (volume_corrected_weights env_scenario ["A"] [1] 100).1 ≠ [] := by
    simp only [volume_corrected_weights, htb, hn]
    norm_num [hchk1]
  exact ⟨hne, volume_corrected_weights_invariant env_scenario ["A"] [1] 100 hne⟩

/-- Specification of `List.min?` on rationals: the minimum of a non-empty
list is a member below every member. -/
theorem min?_spec (l : List ℚ) (hne : l ≠ []) :
    ∃ m, l.min? = some m ∧ m ∈ l ∧ ∀ x ∈ l, m ≤ x := by
  obtain ⟨m, hm⟩ : ∃ m, l.min? = some m := by
    cases l with
    | nil => exact absurd rfl hne
    | cons x xs => exact ⟨_, List.min?_cons⟩
  have hiff := @List.min?_eq_some_iff ℚ m _ _
    ⟨fun h1 h2 => le_antisymm h1 h2⟩
    (fun a => le_refl a) (fun a b => min_choice a b)
    (fun a b c => le_min_iff) l
  obtain ⟨hmem, hle⟩ := hiff.1 hm
  exact ⟨m, hm, hmem, hle⟩

/-- Mapping commutes with `eraseP` when the predicates correspond. -/
theorem map_eraseP_comm {α β : Type} (f : α → β) (p : α → Bool) (p2 : β → Bool)
    (hpp : ∀ x, p2 (f x) = p x) :
    ∀ l : List α, (l.eraseP p).map f = (l.map f).eraseP p2 := by
  intro l
  induction l with
  | nil => rfl
  | cons a as ih =>
    cases hpa : p a with
    | true => simp [List.eraseP_cons, hpa, hpp]
    | false => simp [List.eraseP_cons, hpa, hpp, ih]

/-- When all matches of the predicate in `l1` equal `a` and `l1` is a
permutation of `a :: l2`, erasing by the predicate is a permutation of
`l2`. -/
theorem eraseP_perm_cons {α : Type} (p : α → Bool) (a : α) (l1 l2 : List α)
    (hperm : l1.Perm (a :: l2)) (hpa : p a = true)
    (huniq : ∀ b ∈ l1, p b = true → b = a) :
    (l1.eraseP p).Perm l2 := by
  have hmem : a ∈ l1 := hperm.mem_iff.2 (List.mem_cons_self _ _)
  obtain ⟨b, u, v, _, hpb, hsplit, herase⟩ := List.exists_of_eraseP hmem hpa
  have hba : b = a := huniq b (by rw [hsplit]; exact List.mem_append_right _ (List.mem_cons_self _ _)) hpb
  subst hba
  rw [herase]
  have h1 : l1.Perm (b :: (u ++ v)) := by
    rw [hsplit]
    exact List.perm_middle
  exact (h1.symm.trans hperm).cons_inv

/-- Applying a function to the weights inside a zip. -/
theorem zip_map_snd {α β γ : Type} (f : β → γ) :
    ∀ (l1 : List α) (l2 : List β),
      (l1.zip l2).map (fun q => (q.1, f q.2)) = l1.zip (l2.map f) := by
  intro l1
  induction l1 with
  | nil => intro l2; rfl
  | cons a as ih =>
    intro l2
    cases l2 with
    | nil => rfl
    | cons b bs => simp [ih]

/-- Zipping the tails is the tail of the zip. -/
theorem zip_tail {α β : Type} (l1 : List α) (l2 : List β) :
    l1.tail.zip l2.tail = (l1.zip l2).tail := by
  cases l1 with
  | nil => rfl
  | cons a as =>
    cases l2 with
    | nil => simp
    | cons b bs => rfl

/-- Zipping two selections at the same index list selects from the zip. -/
theorem zip_gather {α β : Type} (l1 : List α) (l2 : List β) (idx : List ℕ)
    (d1 : α) (d2 : β) (hlen : l1.length = l2.length) :
    (gather l1 idx d1).zip (gather l2 idx d2) = gather (l1.zip l2) idx (d1, d2) := by
  unfold gather
  rw [List.zip_map']
  apply List.map_congr_left
  intro i _
  by_cases hi : i < l1.length
  · rw [List.getD_eq_getElem _ _ hi, List.getD_eq_getElem _ _ (hlen ▸ hi),
      List.getD_eq_getElem _ _ (by simp [hlen]; omega)]
    exact List.getElem_zip.symm
  · rw [List.getD_eq_default _ _ (not_lt.1 hi),
      List.getD_eq_default _ _ (by omega : l2.length ≤ i),
      List.getD_eq_default _ _ (by simp [hlen]; omega)]

/-- Selecting at any permutation of the index range permutes the list. -/
theorem gather_perm {α : Type} (l : List α) (idx : List ℕ) (d : α)
    (h : idx.Perm (List.range l.length)) : (gather l idx d).Perm l := by
  have h2 := h.map (fun i => l.getD i d)
  rw [map_getD_range] at h2
  exact h2

/-- The spec's drop-lowest step corresponds to dropping the head of the
weight-sorted candidate list: scaling by a positive constant, distinctness
of the weights and sortedness pin the erased pair down to the head. -/
theorem drop_lowest_step (c : ℚ) (hc : 0 < c) (M : List (String × ℚ))
    (l0 : String × ℚ) (lrest : List (String × ℚ))
    (hperm : (M.map (fun q => (q.1, q.2 / c))).Perm (l0 :: lrest))
    (hsort : ((l0 :: lrest).map Prod.snd).Sorted (· ≤ ·))
    (hnodup : ((l0 :: lrest).map Prod.snd).Nodup) :
    ((drop_lowest M).map (fun q => (q.1, q.2 / c))).Perm lrest := by
  have hMne : M ≠ [] := by
    intro h
    subst h
    have := hperm.length_eq
    simp at this
  have hsnd : ((M.map Prod.snd).map (· / c)).Perm ((l0 :: lrest).map Prod.snd) := by
    have h2 := hperm.map Prod.snd
    simpa [List.map_map, Function.comp] using h2
  obtain ⟨m, hm, hmem, hle⟩ := min?_spec (M.map Prod.snd) (by simpa using hMne)
  have hl0le : ∀ y ∈ (l0 :: lrest).map Prod.snd, l0.2 ≤ y := by
    intro y hy
    rw [List.map_cons] at hy
    rcases List.mem_cons.1 hy with rfl | hy
    · exact le_refl _
    · exact List.rel_of_sorted_cons hsort y hy
  have hmc_mem : m / c ∈ (l0 :: lrest).map Prod.snd :=
    hsnd.mem_iff.1 (List.mem_map_of_mem _ hmem)
  have hge : l0.2 ≤ m / c := hl0le _ hmc_mem
  have hle2 : m / c ≤ l0.2 := by
    have hl0mem : l0.2 ∈ (M.map Prod.snd).map (· / c) := by
      apply hsnd.symm.mem_iff.1
      rw [List.map_cons]
      exact List.mem_cons_self _ _
    obtain ⟨x, hx, hxe⟩ := List.mem_map.1 hl0mem
    rw [← hxe]
    exact (div_le_div_iff_of_pos_right hc).2 (hle x hx)
  have hmc : m / c = l0.2 := le_antisymm hle2 hge
  have hdl : drop_lowest M = M.eraseP (fun q => decide (q.2 = m)) := by
    unfold drop_lowest
    rw [hm]
  have hmap : (M.eraseP (fun q => decide (q.2 = m))).map (fun q => (q.1, q.2 / c)) =
      (M.map (fun q => (q.1, q.2 / c))).eraseP (fun q => decide (q.2 = l0.2)) := by
    apply map_eraseP_comm
    intro x
    apply decide_eq_decide.2
    constructor
    · intro h
      rw [← hmc] at h
      have h2 := congrArg (fun y => y * c) h
      simpa [div_mul_cancel₀, ne_of_gt hc] using h2
    · intro h
      rw [h]
      exact hmc
  have huniq : ∀ b ∈ M.map (fun q => (q.1, q.2 / c)), b.2 = l0.2 → b = l0 := by
    intro b hb hb2
    have hbL : b ∈ l0 :: lrest := hperm.mem_iff.1 hb
    rcases List.mem_cons.1 hbL with rfl | hbL
    · rfl
    · exfalso
      have hmem2 : l0.2 ∈ lrest.map Prod.snd := by
        rw [← hb2]
        exact List.mem_map_of_mem _ hbL
      rw [List.map_cons] at hnodup
      exact (List.nodup_cons.1 hnodup).1 hmem2
  rw [hdl, hmap]
  exact eraseP_perm_cons _ l0 _ lrest hperm (by simp)
    (fun b hb hpb => huniq b hb (by simpa using hpb))

/-- Correspondence between the code's correction loop (over the
weight-ascending candidate list, weights pre-normalized by the factor `c`)
and the spec's drop-lowest loop (over the unnormalized candidate set):
whenever the spec loop succeeds the code loop returns the same
(symbol, weight) pairs up to order, and whenever the spec loop reports the
batch infeasible the code loop returns empty lists. -/
theorem vcw_loop_spec (env : TradingEnv) (volume : ℚ) :
    ∀ (fuel : ℕ) (M L : List (String × ℚ)) (c : ℚ) (r0 : List String),
      0 < c →
      M.length ≤ fuel →
      (M.map (fun q => (q.1, q.2 / c))).Perm L →
      (L.map Prod.snd).Sorted (· ≤ ·) →
      (∀ q ∈ L, 0 < q.2) →
      (L.map Prod.snd).Nodup →
      (∀ ps, spec_correction_rounds env volume fuel M = some ps →
        ((vcw_loop env volume L r0).1.zip (vcw_loop env volume L r0).2.1).Perm ps) ∧
      (spec_correction_rounds env volume fuel M = none →
        (vcw_loop env volume L r0).1 = [] ∧ (vcw_loop env volume L r0).2.1 = []) := by
  intro fuel
  induction fuel with
  | zero =>
    intro M L c r0 hc hfuel hperm hsort hpos hnodup
    have hM : M = [] := List.length_eq_zero.1 (Nat.le_zero.1 hfuel)
    subst hM
    have hL : L = [] := hperm.symm.eq_nil
    subst hL
    constructor
    · intro ps hps
      simp [spec_correction_rounds] at hps
    · intro _
      exact ⟨rfl, rfl⟩
  | succ fuel ih =>
    intro M L c r0 hc hfuel hperm hsort hpos hnodup
    cases M with
    | nil =>
      have hL : L = [] := hperm.symm.eq_nil
      subst hL
      constructor
      · intro ps hps
        simp [spec_correction_rounds] at hps
      · intro _
        exact ⟨rfl, rfl⟩
    | cons m0 mrest =>
      cases L with
      | nil =>
        exfalso
        have := hperm.length_eq
        simp at this
      | cons l0 lrest =>
        have hSL_pos : 0 < ((l0 :: lrest).map Prod.snd).sum := by
          apply List.sum_pos
          · intro x hx
            obtain ⟨q, hq, rfl⟩ := List.mem_map.1 hx
            exact hpos q hq
          · simp
        have hsnd : (((m0 :: mrest).map Prod.snd).map (· / c)).Perm
            ((l0 :: lrest).map Prod.snd) := by
          have h2 := hperm.map Prod.snd
          simpa [List.map_map, Function.comp] using h2
        have hSM : ((m0 :: mrest).map Prod.snd).sum =
            c * ((l0 :: lrest).map Prod.snd).sum := by
          have hs := hsnd.sum_eq
          rw [sum_map_div] at hs
          rw [(div_eq_iff (ne_of_gt hc)).1 hs, mul_comm]
        have hcodePairs : ((l0 :: lrest).map Prod.fst).zip
            (normalize_weights ((l0 :: lrest).map Prod.snd)) =
            (l0 :: lrest).map
              (fun q => (q.1, q.2 / ((l0 :: lrest).map Prod.snd).sum)) := by
          rw [normalize_weights, List.map_map, List.zip_map']
          simp [Function.comp]
        have hspecPerm : ((m0 :: mrest).map
            (fun q => (q.1, q.2 / ((m0 :: mrest).map Prod.snd).sum))).Perm
            (((l0 :: lrest).map Prod.fst).zip
              (normalize_weights ((l0 :: lrest).map Prod.snd))) := by
          rw [hcodePairs, hSM]
          have heq : (m0 :: mrest).map
              (fun q => (q.1, q.2 / (c * ((l0 :: lrest).map Prod.snd).sum))) =
              ((m0 :: mrest).map (fun q => (q.1, q.2 / c))).map
                (fun q => (q.1, q.2 / ((l0 :: lrest).map Prod.snd).sum)) := by
            rw [List.map_map]
            apply List.map_congr_left
            intro q _
            simp [Function.comp, div_div]
          rw [heq]
          exact hperm.map _
        have hcheck_iff : (check_order_limits env
            ((m0 :: mrest).map
              (fun q => (q.1, q.2 / ((m0 :: mrest).map Prod.snd).sum)))
            volume true).1 = [] ↔
            (check_order_limits env
              (((l0 :: lrest).map Prod.fst).zip
                (normalize_weights ((l0 :: lrest).map Prod.snd)))
              volume true).1 = [] := by
          rw [check_order_limits_nil_iff, check_order_limits_nil_iff]
          constructor
          · intro h q hq
            exact h q (hspecPerm.mem_iff.2 hq)
          · intro h q hq
            exact h q (hspecPerm.mem_iff.1 hq)
        by_cases hcc : (check_order_limits env
            (((l0 :: lrest).map Prod.fst).zip
              (normalize_weights ((l0 :: lrest).map Prod.snd)))
            volume true).1.isEmpty
        · have hsc : (check_order_limits env
              ((m0 :: mrest).map
                (fun q => (q.1, q.2 / ((m0 :: mrest).map Prod.snd).sum)))
              volume true).1.isEmpty := by
            rw [List.isEmpty_iff] at hcc ⊢
            exact hcheck_iff.2 hcc
          have hspec_eq : spec_correction_rounds env volume (fuel + 1) (m0 :: mrest) =
              some ((m0 :: mrest).map
                (fun q => (q.1, q.2 / ((m0 :: mrest).map Prod.snd).sum))) := by
            simp only [spec_correction_rounds, hsc, if_true]
          have hcw_sorted : (normalize_weights ((l0 :: lrest).map Prod.snd)).Sorted
              (· ≤ ·) :=
            normalize_weights_sorted _ hsort (Or.inl hSL_pos)
          have hargsort := argsort_of_sorted _ hcw_sorted
          have hlen : (normalize_weights ((l0 :: lrest).map Prod.snd)).length =
              ((l0 :: lrest).map Prod.fst).length := by
            simp [normalize_weights]
          have hcode : vcw_loop env volume (l0 :: lrest) r0 =
              (((l0 :: lrest).map Prod.fst).reverse,
               (normalize_weights ((l0 :: lrest).map Prod.snd)).reverse, none) := by
            simp only [vcw_loop, hcc, if_true]
            rw [hargsort, hlen, gather_range_reverse]
          constructor
          · intro ps hps
            rw [hspec_eq] at hps
            have hps2 := Option.some.inj hps
            subst hps2
            rw [hcode]
            simp only
            rw [zip_reverse_eq _ _ hlen.symm, hcodePairs]
            exact (List.reverse_perm _).trans
              (by rw [← hcodePairs]; exact hspecPerm.symm)
          · intro hn
            rw [hspec_eq] at hn
            simp at hn
        · have hsc : ¬ (check_order_limits env
              ((m0 :: mrest).map
                (fun q => (q.1, q.2 / ((m0 :: mrest).map Prod.snd).sum)))
              volume true).1.isEmpty := by
            rw [List.isEmpty_iff] at hcc ⊢
            exact fun h => hcc (hcheck_iff.1 h)
          have hspec_eq : spec_correction_rounds env volume (fuel + 1) (m0 :: mrest) =
              spec_correction_rounds env volume fuel (drop_lowest (m0 :: mrest)) := by
            simp only [spec_correction_rounds]
            rw [if_neg (by simpa using hsc)]
          have hcode_eq : vcw_loop env volume (l0 :: lrest) r0 =
              vcw_loop env volume lrest
                (check_order_limits env
                  (((l0 :: lrest).map Prod.fst).zip
                    (normalize_weights ((l0 :: lrest).map Prod.snd)))
                  volume true).2 := by
            simp only [vcw_loop, hcc, Bool.false_eq_true, if_false]
          have hperm2 : ((drop_lowest (m0 :: mrest)).map
              (fun q => (q.1, q.2 / c))).Perm lrest :=
            drop_lowest_step c hc (m0 :: mrest) l0 lrest hperm hsort hnodup
          have hfuel2 : (drop_lowest (m0 :: mrest)).length ≤ fuel := by
            have h1 := hperm2.length_eq
            have h2 := hperm.length_eq
            simp only [List.length_map, List.length_cons] at h1 h2 hfuel
            omega
          have hrec := ih (drop_lowest (m0 :: mrest)) lrest c
            (check_order_limits env
              (((l0 :: lrest).map Prod.fst).zip
                (normalize_weights ((l0 :: lrest).map Prod.snd)))
              volume true).2
            hc hfuel2 hperm2 hsort.of_cons
            (fun q hq => hpos q (List.mem_cons_of_mem _ hq))
            (by
              rw [List.map_cons] at hnodup
              exact (List.nodup_cons.1 hnodup).2)
          rw [hspec_eq, hcode_eq]
          exact hrec

/-- Merge-sorting a two-element list compares the two elements once. -/
theorem mergeSort_pair {α : Type} (le : α → α → Bool) (a b : α) :
    [a, b].mergeSort le = if le a b then [a, b] else [b, a] := by
  simp [List.mergeSort, List.merge]

/-- `np.argsort` on a two-element list. -/
theorem argsort_pair (x y : ℚ) :
    argsort [x, y] = if x ≤ y then [0, 1] else [1, 0] := by
  have h2 : List.range 2 = [0, 1] := rfl
  rw [argsort]
  show (List.range 2).mergeSort _ = _
  rw [h2, mergeSort_pair]
  by_cases h : x ≤ y
  · simp [h]
  · simp [h]

/-- `np.argsort` on a singleton list. -/
theorem argsort_singleton (x : ℚ) : argsort [x] = [0] := by
  rw [argsort]
  show (List.range 1).mergeSort _ = _
  rw [show List.range 1 = [0] from rfl]
  simp

/-- The §8 scenario evaluated on the embedded code: with weights 0.6/0.4,
volume 100 and B's minimum notional 50, the correction drops B and returns
A alone with weight 1. -/
theorem volume_corrected_weights_scenario :
    volume_corrected_weights env_scenario ["A", "B"] [3/5, 2/5] 100 =
      (["A"], [1], none) := by
  have hbA : ¬ (str_lower "A" = str_lower env_scenario.baseSymbol) := by decide
  have hbB : ¬ (str_lower "B" = str_lower env_scenario.baseSymbol) := by decide
  have hmA : env_scenario.markets (ticker_of env_scenario.baseSymbol "A") =
      some { price := 1, minAmount := 0, minCost := 10 } := by decide
  have hmB : env_scenario.markets (ticker_of env_scenario.baseSymbol "B") =
      some { price := 1, minAmount := 0, minCost := 50 } := by decide
  have htb : env_scenario.toBaseSymbol 100 = 100 := rfl
  have hn : normalize_weights [3/5, 2/5] = [3/5, 2/5] := by
    norm_num [normalize_weights]
  have hn1 : normalize_weights [3/5] = [1] := by
    norm_num [normalize_weights]
  have hs : argsort [(3:ℚ)/5, 2/5] = [1, 0] := by
    rw [argsort_pair]
    norm_num
  have hchk : check_order_limits env_scenario (["A", "B"].zip [3/5, 2/5]) 100 true =
      (["B"], ["Order cost too low"]) := by
    norm_num [check_order_limits, hbA, hbB, hmA, hmB]
  have hchk1 : check_order_limits env_scenario [("A", 1)] 100 true = ([], []) := by
    norm_num [check_order_limits, hbA, hmA]
  simp only [volume_corrected_weights, htb, hn, hchk, hs]
  norm_num [gather, vcw_loop, hn1, hchk1, argsort_singleton]

/-- Claim C2: whenever the initial limit check of `volume_corrected_weights`
finds any failing symbol, the algorithm drops exactly the single
lowest-weight symbol from the candidate set, renormalizes the remaining
weights to sum to 1, and re-checks, repeating until all remaining symbols
pass or the set is empty (infeasible): the code refines the spec's
drop-lowest loop (`spec_order_size_correction`) — whenever the spec loop
returns a set, the code returns the same (symbol, weight) pairs up to order,
and whenever the spec loop reports the batch infeasible the code returns
empty lists (with the failure reason); distinct positive input weights pin
the spec's "single lowest-weight symbol" down uniquely.  In particular, for
symbols=[A,B], weights=[0.6,0.4], volume=100 and B's minimum notional 50,
the result is symbols=[A] with weights=[1.0]. -/
theorem volume_corrected_weights_spec (env : TradingEnv)
    (symbols : List String) (weights0 : List ℚ) (v : ℚ)
    (hlen : symbols.length = weights0.length)
    (hpos : ∀ w ∈ weights0, 0 < w)
    (hnodup : weights0.Nodup) :
    ((∀ ps, spec_order_size_correction env (env.toBaseSymbol v)
        (symbols.zip weights0) = some ps →
        ((volume_corrected_weights env symbols weights0 v).1.zip
          (volume_corrected_weights env symbols weights0 v).2.1).Perm ps) ∧
     (spec_order_size_correction env (env.toBaseSymbol v)
        (symbols.zip weights0) = none →
        (volume_corrected_weights env symbols weights0 v).1 = [] ∧
        (volume_corrected_weights env symbols weights0 v).2.1 = [])) ∧
    volume_corrected_weights env_scenario ["A", "B"] [3/5, 2/5] 100 =
      (["A"], [1], none) := by
  refine ⟨?_, volume_corrected_weights_scenario⟩
  have hsnd0 : (symbols.zip weights0).map Prod.snd = weights0 :=
    List.map_snd_zip _ _ (le_of_eq hlen.symm)
  have hkey : (symbols.zip weights0).map
      (fun q => (q.1, q.2 / ((symbols.zip weights0).map Prod.snd).sum)) =
      symbols.zip (normalize_weights weights0) := by
    rw [hsnd0, show normalize_weights weights0 =
      weights0.map (fun x => x / weights0.sum) from rfl, ← zip_map_snd]
  by_cases hcc0 : (check_order_limits env
      (symbols.zip (normalize_weights weights0))
      (env.toBaseSymbol v) true).1.isEmpty
  · have hres : volume_corrected_weights env symbols weights0 v =
        (symbols, normalize_weights weights0, some []) := by
      simp only [volume_corrected_weights, hcc0, if_true]
    cases hpairs : symbols.zip weights0 with
    | nil =>
      have hlen0 : symbols.length = 0 := by
        have h := congrArg List.length hpairs
        rw [List.length_zip, ← hlen, Nat.min_self] at h
        simpa using h
      have hs0 : symbols = [] := List.length_eq_zero.1 hlen0
      have hw0 : weights0 = [] := List.length_eq_zero.1 (by rw [← hlen]; exact hlen0)
      constructor
      · intro ps hps
        simp [spec_order_size_correction, spec_correction_rounds] at hps
      · intro _
        rw [hres]
        exact ⟨hs0, by rw [hw0]; exact rfl⟩
    | cons p rest =>
      have hkey2 : (p :: rest).map
          (fun q => (q.1, q.2 / ((p :: rest).map Prod.snd).sum)) =
          symbols.zip (normalize_weights weights0) := by
        rw [← hpairs]
        exact hkey
      have hsc : (check_order_limits env
          ((p :: rest).map (fun q => (q.1, q.2 / ((p :: rest).map Prod.snd).sum)))
          (env.toBaseSymbol v) true).1.isEmpty := by
        rw [hkey2]
        exact hcc0
      have hspec : spec_order_size_correction env (env.toBaseSymbol v)
          (p :: rest) =
          some (symbols.zip (normalize_weights weights0)) := by
        rw [spec_order_size_correction, List.length_cons]
        simp only [spec_correction_rounds, hsc, if_true]
        rw [hkey2]
      constructor
      · intro ps hps
        rw [hspec] at hps
        have hps2 := Option.some.inj hps
        subst hps2
        rw [hres]
      · intro hn
        rw [hspec] at hn
        simp at hn
  · have hsne : symbols.zip (normalize_weights weights0) ≠ [] := by
      intro h
      rw [h] at hcc0
      exact hcc0 rfl
    set cw := normalize_weights weights0 with hcw
    set L := (gather symbols ((argsort cw).drop 1) "").zip
      (gather cw ((argsort cw).drop 1) 0) with hL
    have hres : volume_corrected_weights env symbols weights0 v =
        vcw_loop env (env.toBaseSymbol v) L
          (check_order_limits env (symbols.zip cw) (env.toBaseSymbol v) true).2 := by
      simp only [volume_corrected_weights, hcc0, Bool.false_eq_true, if_false, hL, hcw]
    have hlen2 : symbols.length = cw.length := by
      simp [hcw, normalize_weights, hlen]
    have hS : (gather symbols (argsort cw) "").zip (gather cw (argsort cw) 0) =
        gather (symbols.zip cw) (argsort cw) ("", 0) :=
      zip_gather _ _ _ _ _ hlen2
    have hSperm : (gather (symbols.zip cw) (argsort cw) ("", 0)).Perm
        (symbols.zip cw) := by
      apply gather_perm
      have hzl : (symbols.zip cw).length = cw.length := by
        rw [List.length_zip, hlen2, Nat.min_self]
      rw [hzl]
      exact List.mergeSort_perm _ _
    have hLtail : L = ((gather symbols (argsort cw) "").zip
        (gather cw (argsort cw) 0)).tail := by
      rw [hL, gather_drop, gather_drop, List.drop_one, List.drop_one, zip_tail]
    have hsndS : ((gather symbols (argsort cw) "").zip
        (gather cw (argsort cw) 0)).map Prod.snd = gather cw (argsort cw) 0 := by
      apply List.map_snd_zip
      simp [gather]
    have hsortS : (gather cw (argsort cw) 0).Sorted (· ≤ ·) := argsort_gather_sorted cw
    have hw0ne : weights0 ≠ [] := by
      intro h
      apply hsne
      rw [hcw, h]
      simp [normalize_weights]
    have hcpos : (0:ℚ) < weights0.sum := List.sum_pos weights0 hpos hw0ne
    have hcwnodup : cw.Nodup := by
      rw [hcw, show normalize_weights weights0 =
        weights0.map (fun x => x / weights0.sum) from rfl]
      apply hnodup.map
      intro a b hab
      have h2 := congrArg (fun y => y * weights0.sum) hab
      simpa [div_mul_cancel₀, ne_of_gt hcpos] using h2
    have hnodupS : (gather cw (argsort cw) 0).Nodup :=
      (argsort_gather_perm cw).nodup_iff.2 hcwnodup
    cases hScons : (gather symbols (argsort cw) "").zip (gather cw (argsort cw) 0) with
    | nil =>
      exfalso
      apply hsne
      have h1 : gather (symbols.zip cw) (argsort cw) ("", 0) = [] := by
        rw [← hS, hScons]
      rw [h1] at hSperm
      exact hSperm.symm.eq_nil
    | cons s0 srest =>
      have hgs : gather (symbols.zip cw) (argsort cw) ("", 0) = s0 :: srest := by
        rw [← hS, hScons]
      have hSperm2 : (s0 :: srest).Perm (symbols.zip cw) := hgs ▸ hSperm
      have hsndS2 : (s0 :: srest).map Prod.snd = gather cw (argsort cw) 0 :=
        hScons ▸ hsndS
      cases hpairs : symbols.zip weights0 with
      | nil =>
        exfalso
        apply hsne
        have hlen0 : symbols.length = 0 := by
          have h := congrArg List.length hpairs
          rw [List.length_zip, ← hlen, Nat.min_self] at h
          simpa using h
        rw [List.length_eq_zero.1 hlen0]
        rfl
      | cons p rest =>
        have hkey2 : (p :: rest).map
            (fun q => (q.1, q.2 / ((p :: rest).map Prod.snd).sum)) =
            symbols.zip cw := by
          rw [← hpairs]
          exact hkey
        have hscfail : ¬ (check_order_limits env
            ((p :: rest).map (fun q => (q.1, q.2 / ((p :: rest).map Prod.snd).sum)))
            (env.toBaseSymbol v) true).1.isEmpty := by
          rw [hkey2]
          exact hcc0
        have hspec : spec_order_size_correction env (env.toBaseSymbol v)
            (p :: rest) =
            spec_correction_rounds env (env.toBaseSymbol v) rest.length
              (drop_lowest (p :: rest)) := by
          rw [spec_order_size_correction, List.length_cons]
          simp only [spec_correction_rounds]
          rw [if_neg (by simpa using hscfail)]
        have hpairsmap : (p :: rest).map
            (fun q => (q.1, q.2 / weights0.sum)) = symbols.zip cw := by
          have hsum : ((p :: rest).map Prod.snd).sum = weights0.sum := by
            rw [← hpairs, hsnd0]
          rw [← hsum]
          exact hkey2
        have hSp : ((p :: rest).map (fun q => (q.1, q.2 / weights0.sum))).Perm
            (s0 :: srest) := by
          rw [hpairsmap]
          exact hSperm2.symm
        have hsortCons : ((s0 :: srest).map Prod.snd).Sorted (· ≤ ·) := by
          rw [hsndS2]
          exact hsortS
        have hnodupCons : ((s0 :: srest).map Prod.snd).Nodup := by
          rw [hsndS2]
          exact hnodupS
        have hperm2 : ((drop_lowest (p :: rest)).map
            (fun q => (q.1, q.2 / weights0.sum))).Perm srest :=
          drop_lowest_step weights0.sum hcpos (p :: rest) s0 srest hSp
            hsortCons hnodupCons
        have hfuel2 : (drop_lowest (p :: rest)).length ≤ rest.length := by
          have h1 := hperm2.length_eq
          have h2 := hSp.length_eq
          simp only [List.length_map, List.length_cons] at h1 h2
          omega
        have hsortTail : (srest.map Prod.snd).Sorted (· ≤ ·) := by
          rw [List.map_cons] at hsortCons
          exact hsortCons.of_cons
        have hnodupTail : (srest.map Prod.snd).Nodup := by
          rw [List.map_cons] at hnodupCons
          exact (List.nodup_cons.1 hnodupCons).2
        have hposTail : ∀ q ∈ srest, 0 < q.2 := by
          intro q hq
          have hqS : q ∈ symbols.zip cw :=
            hSperm2.mem_iff.1 (List.mem_cons_of_mem _ hq)
          have hq2 : q.2 ∈ cw := (List.of_mem_zip hqS).2
          rw [hcw, show normalize_weights weights0 =
            weights0.map (fun x => x / weights0.sum) from rfl] at hq2
          obtain ⟨w, hw, hwq⟩ := List.mem_map.1 hq2
          rw [← hwq]
          exact div_pos (hpos w hw) hcpos
        have hmain := vcw_loop_spec env (env.toBaseSymbol v) rest.length
          (drop_lowest (p :: rest)) srest weights0.sum
          (check_order_limits env (symbols.zip cw) (env.toBaseSymbol v) true).2
          hcpos hfuel2 hperm2 hsortTail hposTail hnodupTail
        have hLs : L = srest := by
          rw [hLtail, hScons, List.tail_cons]
        rw [hres, hLs]
        constructor
        · intro ps hps
          rw [hspec] at hps
          exact hmain.1 ps hps
        · intro hn
          rw [hspec] at hn
          exact hmain.2 hn

/-- Witness for C2: the refinement instantiated at the §8 scenario exchange
with symbols [A, B], distinct positive weights [0.6, 0.4] and volume 100. -/
theorem volume_corrected_weights_spec_witness :
    ((∀ ps, spec_order_size_correction env_scenario (env_scenario.toBaseSymbol 100)
        (["A", "B"].zip [3/5, 2/5]) = some ps →
        ((volume_corrected_weights env_scenario ["A", "B"] [3/5, 2/5] 100).1.zip
          (volume_corrected_weights env_scenario ["A", "B"] [3/5, 2/5] 100).2.1).Perm ps) ∧
     (spec_order_size_correction env_scenario (env_scenario.toBaseSymbol 100)
        (["A", "B"].zip [3/5, 2/5]) = none →
        (volume_corrected_weights env_scenario ["A", "B"] [3/5, 2/5] 100).1 = [] ∧
        (volume_corrected_weights env_scenario ["A", "B"] [3/5, 2/5] 100).2.1 = [])) ∧
    volume_corrected_weights env_scenario ["A", "B"] [3/5, 2/5] 100 =
      (["A"], [1], none) :=
  volume_corrected_weights_spec env_scenario ["A", "B"] [3/5, 2/5] 100
    (by decide) (by norm_num) (by norm_num [List.nodup_cons])
